import Mathlib

/-!
Verification development for the manuai adaptive query-serving core.

Shallow embedding of the components in `manuai/database_optimizer.py` and
`manuai/optimizations.py`: the connection pool, the TTL/LRU query-result
cache, the cached query executor, the complexity analyzer and router, the
threshold calibrator, the performance monitor and the token-optimization
pipeline.  Machine floats are modelled as rationals, Python `time.time()`
values are explicit rational parameters, and the SHA-256 cache key
derivation is modelled as the identity on the query text (the hash is
injective on all inputs considered, collisions are assumed absent).
-/

/-! ## Connection pool (`DatabasePool` in database_optimizer.py)

Connections are modelled by natural-number identifiers: the counter
`created_connections` doubles as the id supply, so the `k`-th connection
ever created is `k`.  The Python `in_use` set becomes a `Finset ℕ`, the
`pool` list keeps its order (`list.append` at the back, `list.pop()` from
the back).  The blocking wait loop of `get_connection` can never be
satisfied in a single-threaded execution (no other thread returns a
connection while the lock is held), hence exhaustion is modelled as
`none`. -/

structure PoolState where
  pool : List ℕ
  in_use : Finset ℕ
  created_connections : ℕ
  max_connections : ℕ
deriving DecidableEq, Inhabited

namespace PoolState

/-- Fresh pool as built by `DatabasePool.__init__`. -/
def init (max_connections : ℕ) : PoolState :=
  { pool := [], in_use := ∅, created_connections := 0, max_connections := max_connections }

/-- `DatabasePool.get_connection`: pop an idle connection from the back of
the pool, else create a new one while under the limit, else fail
(the wait loop times out in a sequential execution). -/
def get_connection (s : PoolState) : Option (ℕ × PoolState) :=
  match s.pool.getLast? with
  | some conn =>
      some (conn, { s with pool := s.pool.dropLast, in_use := insert conn s.in_use })
  | none =>
      if s.created_connections < s.max_connections then
        some (s.created_connections,
          { s with in_use := insert s.created_connections s.in_use,
                   created_connections := s.created_connections + 1 })
      else none

/-- `DatabasePool.return_connection`: only a connection currently in the
in-use set is moved back to the idle pool; anything else is a no-op. -/
def return_connection (s : PoolState) (conn : ℕ) : PoolState :=
  if conn ∈ s.in_use then
    { s with in_use := s.in_use.erase conn, pool := s.pool ++ [conn] }
  else s

/-- States reachable from a fresh pool by any sequence of
`get_connection` / `return_connection` calls. -/
inductive Reachable : PoolState → Prop
  | init (max_connections : ℕ) : Reachable (init max_connections)
  | step_get {s : PoolState} {c : ℕ} {s' : PoolState} :
      Reachable s → get_connection s = some (c, s') → Reachable s'
  | step_return {s : PoolState} (c : ℕ) :
      Reachable s → Reachable (return_connection s c)

/-- The pool invariant: the idle list is duplicate-free and disjoint from
the in-use set, the id counter counts the live connections, the counter
never exceeds the cap, and every live id is below the counter. -/
def Inv (s : PoolState) : Prop :=
  s.pool.Nodup ∧
  (∀ c ∈ s.pool, c ∉ s.in_use) ∧
  s.pool.length + s.in_use.card = s.created_connections ∧
  s.created_connections ≤ s.max_connections ∧
  (∀ c, c ∈ s.pool ∨ c ∈ s.in_use → c < s.created_connections)

lemma inv_init (m : ℕ) : Inv (init m) := by
  refine ⟨List.nodup_nil, ?_, ?_, ?_, ?_⟩ <;> simp [init]

lemma inv_get {s : PoolState} {c : ℕ} {s' : PoolState}
    (hs : Inv s) (h : get_connection s = some (c, s')) : Inv s' := by
  obtain ⟨hnd, hdisj, hcount, hcap, hfresh⟩ := hs
  unfold get_connection at h
  cases hL : s.pool.getLast? with
  | none =>
    rw [hL] at h
    simp only at h
    split at h
    case isTrue hlt =>
      simp only [Option.some.injEq, Prod.mk.injEq] at h
      obtain ⟨hc, hs'⟩ := h
      subst hs'
      have hpool : s.pool = [] := List.getLast?_eq_none_iff.mp hL
      have hcnotin : s.created_connections ∉ s.in_use := fun hmem =>
        lt_irrefl _ (hfresh _ (Or.inr hmem))
      refine ⟨hnd, ?_, ?_, hlt, ?_⟩
      · intro d hd hmem
        dsimp only at hd
        rw [hpool] at hd
        exact absurd hd (List.not_mem_nil d)
      · dsimp only
        rw [Finset.card_insert_of_not_mem hcnotin]
        omega
      · intro d hd
        dsimp only at hd ⊢
        rcases hd with hd | hd
        · rw [hpool] at hd
          exact absurd hd (List.not_mem_nil d)
        · rcases Finset.mem_insert.mp hd with rfl | hd
          · omega
          · exact Nat.lt_succ_of_lt (hfresh _ (Or.inr hd))
    case isFalse => exact absurd h (by simp)
  | some conn =>
    rw [hL] at h
    simp only [Option.some.injEq, Prod.mk.injEq] at h
    obtain ⟨hc, hs'⟩ := h
    subst hc
    subst hs'
    have hdl : s.pool.dropLast ++ [conn] = s.pool :=
      List.dropLast_append_getLast? conn (Option.mem_def.mpr hL)
    have hmem : conn ∈ s.pool := by
      rw [← hdl]
      exact List.mem_append_right _ (List.mem_singleton_self conn)
    have hcnotin : conn ∉ s.in_use := hdisj _ hmem
    have hsub : ∀ d ∈ s.pool.dropLast, d ∈ s.pool := fun d hd =>
      List.mem_of_mem_dropLast hd
    have hndl : (s.pool.dropLast ++ [conn]).Nodup := by rw [hdl]; exact hnd
    have hcnotdl : conn ∉ s.pool.dropLast := fun hc =>
      (List.disjoint_of_nodup_append hndl) hc (List.mem_singleton_self conn)
    refine ⟨(List.nodup_append.mp hndl).1, ?_, ?_, hcap, ?_⟩
    · intro d hd hmem'
      dsimp only at hd hmem'
      rcases Finset.mem_insert.mp hmem' with rfl | hin
      · exact hcnotdl hd
      · exact hdisj _ (hsub _ hd) hin
    · have hlen : s.pool.dropLast.length + 1 = s.pool.length := by
        conv_rhs => rw [← hdl]
        simp
      dsimp only
      rw [Finset.card_insert_of_not_mem hcnotin]
      omega
    · intro d hd
      dsimp only at hd ⊢
      rcases hd with hd | hd
      · exact hfresh _ (Or.inl (hsub _ hd))
      · rcases Finset.mem_insert.mp hd with rfl | hd
        · exact hfresh _ (Or.inl hmem)
        · exact hfresh _ (Or.inr hd)

lemma inv_return {s : PoolState} (hs : Inv s) (c : ℕ) : Inv (return_connection s c) := by
  obtain ⟨hnd, hdisj, hcount, hcap, hfresh⟩ := hs
  unfold return_connection
  split
  · rename_i hc
    have hcnotpool : c ∉ s.pool := fun hp => hdisj _ hp hc
    have hin : 1 ≤ s.in_use.card := Finset.card_pos.mpr ⟨c, hc⟩
    refine ⟨?_, ?_, ?_, hcap, ?_⟩
    · dsimp only
      simpa [List.nodup_append] using ⟨hnd, hcnotpool⟩
    · intro d hd
      dsimp only at hd ⊢
      rcases List.mem_append.mp hd with hd | hd
      · intro hmem
        exact hdisj _ hd (Finset.mem_of_mem_erase hmem)
      · rw [List.mem_singleton.mp hd]
        exact Finset.not_mem_erase c s.in_use
    · dsimp only
      rw [List.length_append, Finset.card_erase_of_mem hc]
      simp only [List.length_singleton]
      omega
    · intro d hd
      dsimp only at hd ⊢
      rcases hd with hd | hd
      · rcases List.mem_append.mp hd with hd | hd
        · exact hfresh _ (Or.inl hd)
        · rw [List.mem_singleton.mp hd]
          exact hfresh _ (Or.inr hc)
      · exact hfresh _ (Or.inr (Finset.mem_of_mem_erase hd))
  · exact ⟨hnd, hdisj, hcount, hcap, hfresh⟩

/-- Every reachable pool state satisfies the invariant. -/
lemma reachable_inv {s : PoolState} (h : Reachable s) : Inv s := by
  induction h with
  | init m => exact inv_init m
  | step_get _ hget ih => exact inv_get ih hget
  | step_return c _ ih => exact inv_return ih c

end PoolState

/-- C2: over every sequence of `get_connection` / `return_connection`
calls, the live connections (in use plus idle) never exceed
`max_connections`; `get_connection` never hands out a connection that is
already in a caller's hands; and once every connection has been released
(the in-use set is empty), a `get_connection` call on a pool with a
positive cap succeeds immediately, without entering the wait loop. -/
theorem databasePool_bounded_exclusive_nonblocking (s : PoolState)
    (h : PoolState.Reachable s) :
    s.in_use.card + s.pool.length ≤ s.max_connections ∧
    (∀ c s', PoolState.get_connection s = some (c, s') → c ∉ s.in_use) ∧
    (s.in_use = ∅ → 0 < s.max_connections →
      ∃ c s', PoolState.get_connection s = some (c, s')) := by
  obtain ⟨hnd, hdisj, hcount, hcap, hfresh⟩ := PoolState.reachable_inv h
  refine ⟨by omega, ?_, ?_⟩
  · intro c s' hget
    unfold PoolState.get_connection at hget
    cases hL : s.pool.getLast? with
    | none =>
      rw [hL] at hget
      simp only at hget
      split at hget
      · simp only [Option.some.injEq, Prod.mk.injEq] at hget
        obtain ⟨hc, -⟩ := hget
        rw [← hc]
        exact fun hmem => lt_irrefl _ (hfresh _ (Or.inr hmem))
      · exact absurd hget (by simp)
    | some conn =>
      rw [hL] at hget
      simp only [Option.some.injEq, Prod.mk.injEq] at hget
      obtain ⟨hc, -⟩ := hget
      have hdl : s.pool.dropLast ++ [conn] = s.pool :=
        List.dropLast_append_getLast? conn (Option.mem_def.mpr hL)
      have hmem : conn ∈ s.pool := by
        rw [← hdl]
        exact List.mem_append_right _ (List.mem_singleton_self conn)
      rw [← hc]
      exact hdisj _ hmem
  · intro hempty hpos
    cases hL : s.pool.getLast? with
    | none =>
      have hpool : s.pool = [] := List.getLast?_eq_none_iff.mp hL
      have : s.created_connections = 0 := by
        rw [hpool, hempty] at hcount
        simpa using hcount.symm
      refine ⟨s.created_connections,
        { s with in_use := insert s.created_connections s.in_use,
                 created_connections := s.created_connections + 1 }, ?_⟩
      unfold PoolState.get_connection
      rw [hL]
      simp only
      rw [if_pos (by omega)]
    | some conn =>
      refine ⟨conn,
        { s with pool := s.pool.dropLast, in_use := insert conn s.in_use }, ?_⟩
      unfold PoolState.get_connection
      rw [hL]

/-- C2 witness: the invariants instantiated at a concrete reachable state,
a fresh pool with cap 10 after one acquire and one release. -/
theorem databasePool_bounded_exclusive_nonblocking_witness :
    let s := PoolState.return_connection ⟨[], {0}, 1, 10⟩ 0
    s.in_use.card + s.pool.length ≤ s.max_connections ∧
    (∀ c s', PoolState.get_connection s = some (c, s') → c ∉ s.in_use) ∧
    (s.in_use = ∅ → 0 < s.max_connections →
      ∃ c s', PoolState.get_connection s = some (c, s')) :=
  databasePool_bounded_exclusive_nonblocking _
    (PoolState.Reachable.step_return 0
      (@PoolState.Reachable.step_get (PoolState.init 10) 0 ⟨[], {0}, 1, 10⟩
        (PoolState.Reachable.init 10) (by decide)))

/-- C10: in every reachable pool state, releasing a connection that is not
in the in-use set (for example a second release of the same connection)
leaves the pool state exactly unchanged, the idle pool holds no duplicate
entries, and the idle pool is disjoint from the in-use set. -/
theorem databasePool_double_release_noop (s : PoolState)
    (h : PoolState.Reachable s) (conn : ℕ) :
    (conn ∉ s.in_use → PoolState.return_connection s conn = s) ∧
    s.pool.Nodup ∧
    (∀ c ∈ s.pool, c ∉ s.in_use) := by
  obtain ⟨hnd, hdisj, _, _, _⟩ := PoolState.reachable_inv h
  refine ⟨?_, hnd, hdisj⟩
  intro hnotin
  unfold PoolState.return_connection
  rw [if_neg hnotin]

/-- C10 witness: a double release at a concrete reachable state.  The
connection obtained from a fresh pool is released twice; the second
release is a no-op and the invariants hold. -/
theorem databasePool_double_release_noop_witness :
    let s := PoolState.return_connection ⟨[], {0}, 1, 3⟩ 0
    (0 ∉ s.in_use → PoolState.return_connection s 0 = s) ∧
    s.pool.Nodup ∧
    (∀ c ∈ s.pool, c ∉ s.in_use) :=
  databasePool_double_release_noop _
    (PoolState.Reachable.step_return 0
      (@PoolState.Reachable.step_get (PoolState.init 3) 0 ⟨[], {0}, 1, 3⟩
        (PoolState.Reachable.init 3) (by decide))) 0

/-! ## Query result cache (`QueryResultCache` in database_optimizer.py)

The Python `OrderedDict` is modelled as an association list in recency
order: the front is the least recently used entry, the back the most
recently used.  `self.cache[key] = (time.time(), result)` followed by
`move_to_end(key)` repositions the entry at the back; `popitem(last=False)`
drops the front entry.  `_generate_key` (SHA-256 of the query text) is
modelled as the identity on the query text.  Values stay polymorphic in
`V` (the row set type).  Time is an explicit rational parameter standing
for `time.time()`. -/

structure QRCache (V : Type) where
  cache : List (String × ℚ × V)
  max_size : ℕ
  ttl : ℚ

namespace QRCache

variable {V : Type}

/-- Lookup of `self.cache[key]` (timestamp, result). -/
def lookup (k : String) (c : List (String × ℚ × V)) : Option (ℚ × V) :=
  (c.find? (fun e => e.1 == k)).map Prod.snd

/-- Python dict assignment `self.cache[key] = tv`: replace in place when
the key is present, append at the back otherwise. -/
def odAssign (k : String) (tv : ℚ × V) (c : List (String × ℚ × V)) :
    List (String × ℚ × V) :=
  if c.any (fun e => e.1 == k) then
    c.map (fun e => if e.1 == k then (k, tv) else e)
  else c ++ [(k, tv)]

/-- `OrderedDict.move_to_end(key)`: reposition the entry for `key` at the
back (most recently used).  Call sites guarantee the key is present. -/
def odMoveToEnd (k : String) (c : List (String × ℚ × V)) :
    List (String × ℚ × V) :=
  match c.find? (fun e => e.1 == k) with
  | some e => c.eraseP (fun x => x.1 == k) ++ [e]
  | none => c

/-- `QueryResultCache.get`: `None` on a missing key; on a present key,
delete and return `None` when `now - timestamp > ttl` (note the strict
inequality: an entry of age exactly `ttl` is still served), otherwise
refresh recency and return the rows. -/
def get (now : ℚ) (query : String) (s : QRCache V) : Option V × QRCache V :=
  match lookup query s.cache with
  | none => (none, s)
  | some (timestamp, result) =>
      if now - timestamp > s.ttl then
        (none, { s with cache := s.cache.eraseP (fun e => e.1 == query) })
      else
        (some result, { s with cache := odMoveToEnd query s.cache })

/-- `QueryResultCache.set`: store `(now, result)` under the key, move it
to the back, and drop the least recently used (front) entry on
overflow. -/
def set (now : ℚ) (query : String) (result : V) (s : QRCache V) : QRCache V :=
  let c1 := odAssign query (now, result) s.cache
  let c2 := odMoveToEnd query c1
  if c2.length > s.max_size then { s with cache := c2.tail }
  else { s with cache := c2 }

/-- Well-formedness carried by every state the Python dict can be in:
keys are pairwise distinct. -/
def KeysNodup (c : List (String × ℚ × V)) : Prop :=
  (c.map Prod.fst).Nodup

lemma keysNodup_nil : KeysNodup ([] : List (String × ℚ × V)) := by
  simp [KeysNodup]

lemma keysNodup_cons {e : String × ℚ × V} {c : List (String × ℚ × V)}
    (h : KeysNodup (e :: c)) : KeysNodup c ∧ e.1 ∉ c.map Prod.fst := by
  rw [KeysNodup, List.map_cons, List.nodup_cons] at h
  exact ⟨h.2, h.1⟩

lemma keysNodup_of_sublist {c d : List (String × ℚ × V)}
    (hsub : List.Sublist c d) (h : KeysNodup d) : KeysNodup c :=
  List.Nodup.sublist (List.Sublist.map Prod.fst hsub) h

/-- After erasing the entry for `k` from a duplicate-free cache, no entry
for `k` remains. -/
lemma eraseP_keyfree {k : String} :
    ∀ {c : List (String × ℚ × V)}, KeysNodup c →
      ∀ e ∈ c.eraseP (fun x => x.1 == k), e.1 ≠ k := by
  intro c
  induction c with
  | nil => intro _ e he; exact absurd he (List.not_mem_nil e)
  | cons a c ih =>
    intro hnd e he
    obtain ⟨hndc, hanotin⟩ := keysNodup_cons hnd
    by_cases ha : a.1 = k
    · rw [List.eraseP_cons_of_pos (by simpa using ha)] at he
      intro hek
      exact hanotin (by
        rw [ha, ← hek]
        exact List.mem_map_of_mem Prod.fst he)
    · rw [List.eraseP_cons_of_neg (by simpa using ha)] at he
      rcases List.mem_cons.mp he with rfl | he
      · exact ha
      · exact ih hndc e (by exact he)

/-- `odAssign` on a missing key appends. -/
lemma odAssign_of_not_mem {k : String} {tv : ℚ × V}
    {c : List (String × ℚ × V)} (h : ∀ e ∈ c, e.1 ≠ k) :
    odAssign k tv c = c ++ [(k, tv)] := by
  unfold odAssign
  rw [if_neg]
  simp only [List.any_eq_true, not_exists, not_and]
  intro e he
  simpa using h e he

lemma odAssign_cons_ne {k : String} {tv : ℚ × V} {a : String × ℚ × V}
    {c : List (String × ℚ × V)} (ha : a.1 ≠ k) :
    odAssign k tv (a :: c) = a :: odAssign k tv c := by
  by_cases hc : (c.any fun e => e.1 == k) = true
  · have h1 : ((a :: c).any fun e => e.1 == k) = true := by
      simp only [List.any_cons, Bool.or_eq_true]
      right
      exact hc
    unfold odAssign
    rw [if_pos h1, if_pos hc, List.map_cons,
      if_neg (show ¬ ((a.1 == k) = true) by simpa using ha)]
  · have h1 : ¬ ((a :: c).any fun e => e.1 == k) = true := by
      simp only [List.any_cons, Bool.or_eq_true, not_or]
      exact ⟨by simpa using ha, hc⟩
    unfold odAssign
    rw [if_neg h1, if_neg hc, List.cons_append]

/-- Replacement map leaves a key-free list untouched. -/
lemma map_assign_id {k : String} {tv : ℚ × V} :
    ∀ (c : List (String × ℚ × V)), (∀ e ∈ c, e.1 ≠ k) →
      c.map (fun e => if e.1 == k then (k, tv) else e) = c := by
  intro c
  induction c with
  | nil => intro _; rfl
  | cons a c ih =>
    intro h
    rw [List.map_cons,
      if_neg (show ¬ ((a.1 == k) = true) by
        simpa using h a (List.mem_cons_self a c))]
    rw [ih (fun e he => h e (List.mem_cons_of_mem a he))]

lemma odAssign_cons_eq {k : String} {tv : ℚ × V} {a : String × ℚ × V}
    {c : List (String × ℚ × V)} (ha : a.1 = k) (hnotk : ∀ e ∈ c, e.1 ≠ k) :
    odAssign k tv (a :: c) = (k, tv) :: c := by
  have h1 : ((a :: c).any fun e => e.1 == k) = true := by
    simp only [List.any_cons, Bool.or_eq_true]
    left
    simpa using ha
  unfold odAssign
  rw [if_pos h1, List.map_cons, if_pos (by simpa using ha)]
  rw [map_assign_id c hnotk]

/-- In a duplicate-free cache `odAssign` always leaves `(k, tv)` as the
first (and only) entry for `k`. -/
lemma find?_odAssign {k : String} {tv : ℚ × V} :
    ∀ {c : List (String × ℚ × V)}, KeysNodup c →
      (odAssign k tv c).find? (fun e => e.1 == k) = some (k, tv) := by
  intro c
  induction c with
  | nil =>
    intro _
    show ((odAssign k tv []).find? fun e => e.1 == k) = some (k, tv)
    rw [odAssign_of_not_mem (by intro e he; exact absurd he (List.not_mem_nil e))]
    rw [List.nil_append, List.find?_cons_of_pos _ (by simp)]
  | cons a c ih =>
    intro hnd
    obtain ⟨hndc, hanotin⟩ := keysNodup_cons hnd
    by_cases ha : a.1 = k
    · have hnotk : ∀ e ∈ c, e.1 ≠ k := by
        intro e he hek
        exact hanotin (by rw [ha, ← hek]; exact List.mem_map_of_mem Prod.fst he)
      rw [odAssign_cons_eq ha hnotk, List.find?_cons_of_pos _ (by simp)]
    · rw [odAssign_cons_ne ha, List.find?_cons_of_neg _ (by simpa using ha)]
      exact ih hndc

/-- `move_to_end` on a list whose first matching entry is `x`. -/
lemma odMoveToEnd_of_find? {k : String} {x : String × ℚ × V}
    {c : List (String × ℚ × V)} (h : c.find? (fun e => e.1 == k) = some x) :
    odMoveToEnd k c = c.eraseP (fun x => x.1 == k) ++ [x] := by
  unfold odMoveToEnd
  rw [h]

/-- Normal form of `set` on the underlying list: assignment followed by
`move_to_end` erases the old entry for the key and appends the fresh one
at the back. -/
lemma odAssign_moveToEnd {k : String} {tv : ℚ × V} :
    ∀ {c : List (String × ℚ × V)}, KeysNodup c →
      odMoveToEnd k (odAssign k tv c) =
        c.eraseP (fun x => x.1 == k) ++ [(k, tv)] := by
  intro c
  induction c with
  | nil =>
    intro _
    rw [odAssign_of_not_mem (by intro e he; exact absurd he (List.not_mem_nil e))]
    rw [List.nil_append,
      odMoveToEnd_of_find? (List.find?_cons_of_pos _ (by simp)),
      List.eraseP_cons_of_pos (by simp)]
    rfl
  | cons a c ih =>
    intro hnd
    obtain ⟨hndc, hanotin⟩ := keysNodup_cons hnd
    by_cases ha : a.1 = k
    · have hnotk : ∀ e ∈ c, e.1 ≠ k := by
        intro e he hek
        exact hanotin (by rw [ha, ← hek]; exact List.mem_map_of_mem Prod.fst he)
      rw [odAssign_cons_eq ha hnotk,
        odMoveToEnd_of_find? (List.find?_cons_of_pos _ (by simp)),
        List.eraseP_cons_of_pos (by simp),
        List.eraseP_cons_of_pos (by simpa using ha)]
    · have hfind : ((a :: odAssign k tv c).find? fun e => e.1 == k) = some (k, tv) := by
        rw [List.find?_cons_of_neg _ (by simpa using ha)]
        exact find?_odAssign hndc
      have hih : (odAssign k tv c).eraseP (fun x => x.1 == k) ++ [(k, tv)] =
          c.eraseP (fun x => x.1 == k) ++ [(k, tv)] := by
        have h2 := ih hndc
        rw [odMoveToEnd_of_find? (find?_odAssign hndc)] at h2
        exact h2
      have hbeq : (a.1 == k) = false := by simpa using ha
      rw [odAssign_cons_ne ha, odMoveToEnd_of_find? hfind,
        List.eraseP_cons, List.eraseP_cons, hbeq]
      simp only [cond_false]
      rw [List.cons_append, List.cons_append, hih]

end QRCache

namespace QRCache

variable {V : Type}

/-- States of the query result cache reachable from the fresh empty cache
built by `QueryResultCache.__init__` via any interleaving of `get` and
`set` calls at arbitrary times. -/
inductive CacheReachable : QRCache V → Prop
  | init (max_size : ℕ) (ttl : ℚ) : CacheReachable ⟨[], max_size, ttl⟩
  | step_get {s : QRCache V} (now : ℚ) (query : String) :
      CacheReachable s → CacheReachable (get now query s).2
  | step_set {s : QRCache V} (now : ℚ) (query : String) (result : V) :
      CacheReachable s → CacheReachable (set now query result s)

/-- Well-formedness invariant of the cache: distinct keys, size within
capacity. -/
def CInv (s : QRCache V) : Prop :=
  KeysNodup s.cache ∧ s.cache.length ≤ s.max_size

lemma keysNodup_eraseP_append {k : String} {e : String × ℚ × V}
    {c : List (String × ℚ × V)} (he : e.1 = k) (h : KeysNodup c) :
    KeysNodup (c.eraseP (fun x => x.1 == k) ++ [e]) := by
  unfold KeysNodup
  rw [List.map_append, List.nodup_append]
  refine ⟨List.Nodup.sublist (List.Sublist.map _ (List.eraseP_sublist c)) h,
    by simp, ?_⟩
  intro x hx
  obtain ⟨y, hy, rfl⟩ := List.mem_map.mp hx
  have := eraseP_keyfree h y hy
  simp only [List.map_cons, List.map_nil, List.mem_singleton]
  rw [he]
  exact this

/-- The underlying list after a `set` in a well-formed cache. -/
lemma set_cache_eq {now : ℚ} {k : String} {v : V} {s : QRCache V}
    (hnd : KeysNodup s.cache) :
    (set now k v s).cache =
      (if (s.cache.eraseP (fun x => x.1 == k) ++ [(k, (now, v))]).length > s.max_size
       then (s.cache.eraseP (fun x => x.1 == k) ++ [(k, (now, v))]).tail
       else s.cache.eraseP (fun x => x.1 == k) ++ [(k, (now, v))]) := by
  unfold set
  dsimp only
  rw [odAssign_moveToEnd hnd]
  split <;> rfl

lemma cinv_set {s : QRCache V} (h : CInv s) (now : ℚ) (k : String) (v : V) :
    CInv (set now k v s) := by
  obtain ⟨hnd, hlen⟩ := h
  have hmax : (set now k v s).max_size = s.max_size := by
    unfold set
    dsimp only
    split <;> rfl
  have hnf := @set_cache_eq V now k v s hnd
  have hndnf : KeysNodup (s.cache.eraseP (fun x => x.1 == k) ++ [(k, (now, v))]) :=
    keysNodup_eraseP_append rfl hnd
  have hlennf : (s.cache.eraseP (fun x => x.1 == k) ++ [(k, (now, v))]).length ≤
      s.cache.length + 1 := by
    rw [List.length_append]
    have herase : (s.cache.eraseP (fun x => x.1 == k)).length ≤ s.cache.length :=
      List.Sublist.length_le (List.eraseP_sublist s.cache)
    simp only [List.length_singleton]
    omega
  constructor
  · rw [KeysNodup, hnf]
    split
    · exact List.Nodup.sublist (List.Sublist.map _ (List.tail_sublist _)) hndnf
    · exact hndnf
  · rw [hnf, hmax]
    split
    · rename_i hgt
      rw [List.length_tail]
      omega
    · rename_i hle
      omega

lemma cinv_get {s : QRCache V} (h : CInv s) (now : ℚ) (k : String) :
    CInv (get now k s).2 := by
  obtain ⟨hnd, hlen⟩ := h
  unfold get
  cases hl : lookup k s.cache with
  | none => exact ⟨hnd, hlen⟩
  | some tv =>
    obtain ⟨ts, w⟩ := tv
    simp only
    split
    · refine ⟨?_, ?_⟩
      · exact keysNodup_of_sublist (List.eraseP_sublist _) hnd
      · exact le_trans (List.Sublist.length_le (List.eraseP_sublist _)) hlen
    · obtain ⟨e, hfind⟩ : ∃ e, s.cache.find? (fun x => x.1 == k) = some e := by
        unfold lookup at hl
        cases hf : s.cache.find? (fun x => x.1 == k) with
        | none => rw [hf] at hl; exact absurd hl (by simp)
        | some e => exact ⟨e, rfl⟩
      have hek : e.1 = k := by simpa using List.find?_some hfind
      have hmem : e ∈ s.cache := List.mem_of_find?_eq_some hfind
      rw [odMoveToEnd_of_find? hfind]
      refine ⟨keysNodup_eraseP_append hek hnd, ?_⟩
      dsimp only
      rw [List.length_append, List.length_singleton,
        List.length_eraseP_add_one hmem (by simpa using hek)]
      exact hlen

/-- Every reachable cache state is well-formed. -/
lemma cacheReachable_cinv {s : QRCache V} (h : CacheReachable s) : CInv s := by
  induction h with
  | init m t => exact ⟨keysNodup_nil, by simp⟩
  | step_get now q _ ih => exact cinv_get ih now q
  | step_set now q r _ ih => exact cinv_set ih now q r

/-- Looking a key up after erasing it and appending a fresh entry finds
the fresh entry. -/
lemma lookup_eraseP_append {k : String} {tv : ℚ × V}
    {c : List (String × ℚ × V)} (hnd : KeysNodup c) :
    lookup k (c.eraseP (fun x => x.1 == k) ++ [(k, tv)]) = some tv := by
  unfold lookup
  rw [List.find?_append]
  rw [List.find?_eq_none.mpr (fun x hx => by simpa using eraseP_keyfree hnd x hx)]
  rw [Option.none_or, List.find?_cons_of_pos _ (by simp)]
  rfl

/-- Lookup in a well-formed cache right after a `set` finds the freshly
stored timestamped value. -/
lemma lookup_set {now : ℚ} {k : String} {v : V} {s : QRCache V}
    (hnd : KeysNodup s.cache) (hmax : 0 < s.max_size) :
    lookup k (set now k v s).cache = some (now, v) := by
  rw [set_cache_eq hnd]
  split
  · rename_i hgt
    cases hcase : s.cache.eraseP (fun x => x.1 == k) with
    | nil =>
      rw [hcase] at hgt
      simp only [List.nil_append, List.length_singleton] at hgt
      omega
    | cons a t =>
      rw [List.cons_append, List.tail_cons]
      have hfree : ∀ x ∈ t, x.1 ≠ k := by
        intro x hx
        refine eraseP_keyfree hnd x ?_
        rw [hcase]
        exact List.mem_cons_of_mem a hx
      unfold lookup
      rw [List.find?_append,
        List.find?_eq_none.mpr (fun x hx => by simpa using hfree x hx),
        Option.none_or, List.find?_cons_of_pos _ (by simp)]
      rfl
  · exact lookup_eraseP_append hnd

/-- `(set ...).ttl` is unchanged. -/
lemma set_ttl {now : ℚ} {k : String} {v : V} {s : QRCache V} :
    (set now k v s).ttl = s.ttl := by
  unfold set
  dsimp only
  split <;> rfl

/-- A successful lookup is a `find?` hit on an entry keyed by `k`. -/
lemma find?_of_lookup {k : String} {c : List (String × ℚ × V)} {tv : ℚ × V}
    (h : lookup k c = some tv) :
    c.find? (fun e => e.1 == k) = some (k, tv) := by
  unfold lookup at h
  cases hf : c.find? (fun e => e.1 == k) with
  | none => rw [hf] at h; exact absurd h (by simp)
  | some e =>
    rw [hf] at h
    have he2 : e.2 = tv := by simpa using h
    have he1 : e.1 = k := by simpa using List.find?_some hf
    rw [← he1, ← he2]

/-- A missing lookup means no entry carries the key. -/
lemma forall_ne_of_lookup_none {k : String} {c : List (String × ℚ × V)}
    (h : lookup k c = none) : ∀ e ∈ c, e.1 ≠ k := by
  unfold lookup at h
  cases hf : c.find? (fun e => e.1 == k) with
  | some e => rw [hf] at h; exact absurd h (by simp)
  | none =>
    intro e he
    have := List.find?_eq_none.mp hf e he
    simpa using this

end QRCache

/-- C3 (amended): in a well-formed query result cache, `get` immediately
after `set` returns the stored rows; an entry is visible to readers while
`now - timestamp ≤ ttl` (the source compares with strict `>` for expiry,
so an entry of age exactly `ttl` is still served); and once the age
strictly exceeds the TTL, `get` returns `None` and deletes the expired
entry on that access. -/
theorem queryResultCache_roundtrip_ttl (V : Type) (s : QRCache V)
    (k : String) (v : V) (now : ℚ)
    (hnd : QRCache.KeysNodup s.cache) (httl : 0 ≤ s.ttl) (hmax : 0 < s.max_size) :
    (QRCache.get now k (QRCache.set now k v s)).1 = some v ∧
    (∀ ts w, QRCache.lookup k s.cache = some (ts, w) → now - ts ≤ s.ttl →
      (QRCache.get now k s).1 = some w) ∧
    (∀ ts w, QRCache.lookup k s.cache = some (ts, w) → s.ttl < now - ts →
      QRCache.get now k s =
        (none, { s with cache := s.cache.eraseP (fun e => e.1 == k) })) := by
  refine ⟨?_, ?_, ?_⟩
  · have hset := @QRCache.lookup_set V now k v s hnd hmax
    unfold QRCache.get
    rw [hset]
    dsimp only
    rw [QRCache.set_ttl, sub_self, if_neg (not_lt.mpr httl)]
  · intro ts w hl hle
    unfold QRCache.get
    rw [hl]
    dsimp only
    rw [if_neg (not_lt.mpr hle)]
  · intro ts w hl hgt
    unfold QRCache.get
    rw [hl]
    dsimp only
    rw [if_pos hgt]

instance (c : List (String × ℚ × ℕ)) : Decidable (QRCache.KeysNodup c) :=
  inferInstanceAs (Decidable (c.map Prod.fst).Nodup)

/-- C3 witness: the amended claim applied to a concrete one-entry cache. -/
theorem queryResultCache_roundtrip_ttl_witness :
    let s : QRCache ℕ := ⟨[("a", ((0 : ℚ), 5))], 10, 300⟩
    (QRCache.get 100 "b" (QRCache.set 100 "b" 7 s)).1 = some 7 ∧
    (∀ ts w, QRCache.lookup "b" s.cache = some (ts, w) → 100 - ts ≤ s.ttl →
      (QRCache.get 100 "b" s).1 = some w) ∧
    (∀ ts w, QRCache.lookup "b" s.cache = some (ts, w) → s.ttl < 100 - ts →
      QRCache.get 100 "b" s =
        (none, { s with cache := s.cache.eraseP (fun e => e.1 == "b") })) :=
  queryResultCache_roundtrip_ttl ℕ _ "b" 7 100 (by decide) (by norm_num) (by norm_num)

/-- C3 counterexample: the claim as stated requires visibility only while
`now - timestamp < ttl`, but at age exactly `ttl` (300 seconds here) the
entry is still returned, because the source expires only on
`now - timestamp > ttl`. -/
theorem queryResultCache_ttl_boundary_counterexample :
    (QRCache.get 300 "k" (QRCache.set 0 "k" (7 : ℕ) ⟨[], 1000, 300⟩)).1 = some 7 ∧
    ¬ ((300 : ℚ) - 0 < 300) := by
  constructor
  · have hset : QRCache.lookup "k"
        (QRCache.set 0 "k" (7 : ℕ) ⟨[], 1000, 300⟩).cache = some (0, 7) :=
      @QRCache.lookup_set ℕ 0 "k" 7 ⟨[], 1000, 300⟩ QRCache.keysNodup_nil (by norm_num)
    unfold QRCache.get
    rw [hset]
    dsimp only
    rw [if_neg (by
      rw [QRCache.set_ttl]
      norm_num)]
  · norm_num

/-- C4: the query result cache never exceeds its capacity; inserting a
fresh key into a full cache evicts exactly the least recently used entry
(the front of the recency list) and keeps all others; and recency is
refreshed both by `set` and by a (non-expired) `get`, which reposition the
touched entry at the most recently used end. -/
theorem queryResultCache_lru_eviction (V : Type) (s : QRCache V)
    (h : QRCache.CacheReachable s) (now : ℚ) (k : String) (v : V) :
    s.cache.length ≤ s.max_size ∧
    (0 < s.max_size → s.cache.length = s.max_size →
      QRCache.lookup k s.cache = none →
      (QRCache.set now k v s).cache = s.cache.tail ++ [(k, (now, v))]) ∧
    (∀ ts w, QRCache.lookup k s.cache = some (ts, w) →
      (QRCache.set now k v s).cache =
        s.cache.eraseP (fun e => e.1 == k) ++ [(k, (now, v))]) ∧
    (∀ ts w, QRCache.lookup k s.cache = some (ts, w) → now - ts ≤ s.ttl →
      (QRCache.get now k s).2.cache =
        s.cache.eraseP (fun e => e.1 == k) ++ [(k, (ts, w))]) := by
  obtain ⟨hnd, hlen⟩ := QRCache.cacheReachable_cinv h
  refine ⟨hlen, ?_, ?_, ?_⟩
  · intro hmax hfull hnone
    have hfree : ∀ e ∈ s.cache, e.1 ≠ k := QRCache.forall_ne_of_lookup_none hnone
    have herase : s.cache.eraseP (fun x => x.1 == k) = s.cache :=
      List.eraseP_of_forall_not (fun e he => by simpa using hfree e he)
    have hne : s.cache ≠ [] := by
      intro hnil
      rw [hnil] at hfull
      simp at hfull
      omega
    rw [QRCache.set_cache_eq hnd, herase]
    rw [if_pos (by
      rw [List.length_append, List.length_singleton]
      omega)]
    rw [List.tail_append_of_ne_nil hne]
  · intro ts w hl
    have hfind := QRCache.find?_of_lookup hl
    have hmem : (k, (ts, w)) ∈ s.cache := List.mem_of_find?_eq_some hfind
    have herase : (s.cache.eraseP (fun x => x.1 == k)).length + 1 = s.cache.length :=
      List.length_eraseP_add_one hmem (by simp)
    rw [QRCache.set_cache_eq hnd]
    rw [if_neg (by
      rw [List.length_append, List.length_singleton]
      omega)]
  · intro ts w hl hle
    have hfind := QRCache.find?_of_lookup hl
    unfold QRCache.get
    rw [hl]
    dsimp only
    rw [if_neg (not_lt.mpr hle)]
    dsimp only
    rw [QRCache.odMoveToEnd_of_find? hfind]

/-- C4 witness: the LRU properties applied to a concrete reachable cache
holding one entry. -/
theorem queryResultCache_lru_eviction_witness :
    let s : QRCache ℕ := QRCache.set 0 "a" 5 ⟨[], 2, 300⟩
    s.cache.length ≤ s.max_size ∧
    (0 < s.max_size → s.cache.length = s.max_size →
      QRCache.lookup "b" s.cache = none →
      (QRCache.set 1 "b" 9 s).cache = s.cache.tail ++ [("b", ((1 : ℚ), 9))]) ∧
    (∀ ts w, QRCache.lookup "b" s.cache = some (ts, w) →
      (QRCache.set 1 "b" 9 s).cache =
        s.cache.eraseP (fun e => e.1 == "b") ++ [("b", ((1 : ℚ), 9))]) ∧
    (∀ ts w, QRCache.lookup "b" s.cache = some (ts, w) → 1 - ts ≤ s.ttl →
      (QRCache.get 1 "b" s).2.cache =
        s.cache.eraseP (fun e => e.1 == "b") ++ [("b", (ts, w))]) :=
  queryResultCache_lru_eviction ℕ _
    (QRCache.CacheReachable.step_set 0 "a" 5 (QRCache.CacheReachable.init 2 300)) 1 "b" 9

/-! ## Python text primitives

Helpers mirroring the Python string operations used by the source:
`str.strip`, `str.upper`, `str.lower`, `str.split()` (on whitespace runs)
and `re.split` on sentence punctuation.  They operate on `List Char`
(`String.data`); ASCII case mapping suffices for the catalogued
patterns. -/

/-- Python `str.isspace` characters relevant to `strip`/`split`. -/
def pyIsSpace (c : Char) : Bool :=
  c == ' ' || c == '\t' || c == '\n' || c == '\r' || c == '\x0B' || c == '\x0C'

/-- ASCII lower-casing, as `str.lower` acts on the catalogued patterns. -/
def pyToLower (c : Char) : Char :=
  if 'A' ≤ c ∧ c ≤ 'Z' then Char.ofNat (c.toNat + 32) else c

/-- ASCII upper-casing, as `str.upper` acts on SQL keywords. -/
def pyToUpper (c : Char) : Char :=
  if 'a' ≤ c ∧ c ≤ 'z' then Char.ofNat (c.toNat - 32) else c

def pyLower (l : List Char) : List Char := l.map pyToLower

def pyUpper (l : List Char) : List Char := l.map pyToUpper

/-- Python `str.strip()`: drop whitespace on both ends. -/
def pyStrip (l : List Char) : List Char :=
  ((l.dropWhile pyIsSpace).reverse.dropWhile pyIsSpace).reverse

/-- Accumulator-based tokenizer behind `pyTokens`. -/
def pyTokensAux : List Char → List Char → List (List Char)
  | [], acc => if acc.isEmpty then [] else [acc.reverse]
  | c :: cs, acc =>
    if pyIsSpace c then
      if acc.isEmpty then pyTokensAux cs [] else acc.reverse :: pyTokensAux cs []
    else pyTokensAux cs (c :: acc)

/-- Python `str.split()` with no separator: split on whitespace runs,
discarding empty fields. -/
def pyTokens (l : List Char) : List (List Char) := pyTokensAux l []

/-- Python `re.split(r"[.!?]", text)`: split at every occurrence of the
punctuation characters, keeping empty fields (the result always has at
least one field). -/
def splitPunct : List Char → List (List Char)
  | [] => [[]]
  | c :: cs =>
    if c == '.' || c == '!' || c == '?' then [] :: splitPunct cs
    else
      match splitPunct cs with
      | [] => [[c]]
      | h :: t => (c :: h) :: t

/-! ## Cached query execution (`DatabaseOptimizer.execute_cached_query`)

The database behind the cursor is an oracle `db : String → V` mapping the
statement text to its row set; the two time stamps are the `time.time()`
values observed at the cache probe and at the cache store.  The running
statistics counters of `DatabaseOptimizer` are omitted: they do not feed
back into cache behavior. -/

/-- The caching guard `query.strip().upper().startswith("SELECT")`. -/
def isSelectQuery (query : String) : Bool :=
  List.isPrefixOf "SELECT".data (pyUpper (pyStrip query.data))

/-- `DatabaseOptimizer.execute_cached_query`: serve from the cache on a
hit; otherwise execute against the store and cache the rows only for a
SELECT statement. -/
def execute_cached_query {V : Type} (tGet tSet : ℚ) (db : String → V)
    (query : String) (s : QRCache V) : V × QRCache V :=
  match QRCache.get tGet query s with
  | (some cached_result, s') => (cached_result, s')
  | (none, s') =>
      let result := db query
      if isSelectQuery query then (result, QRCache.set tSet query result s')
      else (result, s')

/-- Cache states reachable from the fresh optimizer cache through any
sequence of `execute_cached_query` calls (arbitrary statements, times and
store contents). -/
inductive ExecReachable {V : Type} : QRCache V → Prop
  | init (max_size : ℕ) (ttl : ℚ) : ExecReachable ⟨[], max_size, ttl⟩
  | step {s : QRCache V} (tGet tSet : ℚ) (db : String → V) (query : String) :
      ExecReachable s → ExecReachable (execute_cached_query tGet tSet db query s).2

/-- Every cached key is a SELECT statement. -/
def SelectOnly {V : Type} (s : QRCache V) : Prop :=
  ∀ e ∈ s.cache, isSelectQuery e.1 = true

namespace QRCache

lemma mem_odAssign {k : String} {tv : ℚ × V} {c : List (String × ℚ × V)}
    {x : String × ℚ × V} (hx : x ∈ odAssign k tv c) : x ∈ c ∨ x = (k, tv) := by
  unfold odAssign at hx
  split at hx
  · obtain ⟨y, hy, hxy⟩ := List.mem_map.mp hx
    by_cases hyk : (y.1 == k) = true
    · rw [if_pos hyk] at hxy
      right
      exact hxy.symm
    · rw [if_neg hyk] at hxy
      left
      rw [← hxy]
      exact hy
  · rcases List.mem_append.mp hx with hmem | hmem
    · left
      exact hmem
    · right
      exact List.mem_singleton.mp hmem

lemma mem_odMoveToEnd {k : String} {c : List (String × ℚ × V)}
    {x : String × ℚ × V} (hx : x ∈ odMoveToEnd k c) : x ∈ c := by
  unfold odMoveToEnd at hx
  cases hf : c.find? (fun e => e.1 == k) with
  | none =>
    rw [hf] at hx
    exact hx
  | some e =>
    rw [hf] at hx
    rcases List.mem_append.mp hx with hmem | hmem
    · exact List.Sublist.subset (List.eraseP_sublist c) hmem
    · rw [List.mem_singleton.mp hmem]
      exact List.mem_of_find?_eq_some hf

/-- `get` leaves the capacity untouched. -/
lemma get_max_size {now : ℚ} {q : String} {s : QRCache V} :
    (get now q s).2.max_size = s.max_size := by
  unfold get
  cases hl : lookup q s.cache with
  | none => rfl
  | some tv =>
    obtain ⟨ts, w⟩ := tv
    dsimp only
    split <;> rfl

/-- A cache hit means the state after `get` still holds an entry for the
key (repositioned at the most recently used end). -/
lemma get_some_mem {now : ℚ} {q : String} {s : QRCache V} {r : V}
    {s' : QRCache V} (hg : get now q s = (some r, s')) :
    ∃ e ∈ s'.cache, e.1 = q := by
  unfold get at hg
  cases hl : lookup q s.cache with
  | none =>
    rw [hl] at hg
    exact absurd hg (by simp)
  | some tv =>
    obtain ⟨ts, w⟩ := tv
    rw [hl] at hg
    dsimp only at hg
    split at hg
    · exact absurd hg (by simp)
    · have hs' : s'.cache = odMoveToEnd q s.cache := by
        have := congrArg Prod.snd hg
        dsimp only at this
        rw [← this]
      have hfind := find?_of_lookup hl
      rw [hs', odMoveToEnd_of_find? hfind]
      exact ⟨(q, (ts, w)), List.mem_append_right _ (List.mem_singleton_self _), rfl⟩

end QRCache

/-- The state after `execute_cached_query` is either the state after the
cache probe (hit, or miss on a non-SELECT) or additionally has the rows
stored (miss on a SELECT). -/
lemma exec_snd_cases {V : Type} (tGet tSet : ℚ) (db : String → V)
    (query : String) (s : QRCache V) :
    (∃ r, QRCache.get tGet query s =
      (some r, (execute_cached_query tGet tSet db query s).2)) ∨
    ((QRCache.get tGet query s).1 = none ∧
      (execute_cached_query tGet tSet db query s).2 =
        (if isSelectQuery query then
          QRCache.set tSet query (db query) (QRCache.get tGet query s).2
         else (QRCache.get tGet query s).2)) := by
  cases hg : QRCache.get tGet query s with
  | mk o s' =>
    cases o with
    | some r =>
      left
      refine ⟨r, ?_⟩
      have h2 : (execute_cached_query tGet tSet db query s).2 = s' := by
        unfold execute_cached_query
        rw [hg]
      rw [h2]
    | none =>
      right
      constructor
      · rfl
      · unfold execute_cached_query
        rw [hg]
        dsimp only
        split <;> rfl

/-- Execution steps are compositions of cache `get` and `set` steps. -/
lemma execReachable_cacheReachable {V : Type} {s : QRCache V}
    (h : ExecReachable s) : QRCache.CacheReachable s := by
  induction h with
  | init m t => exact QRCache.CacheReachable.init m t
  | step tGet tSet db query hs ih =>
    rename_i s0
    rcases exec_snd_cases tGet tSet db query s0 with ⟨r, hg⟩ | ⟨h1, h2⟩
    · have h2 : (QRCache.get tGet query s0).2 =
          (execute_cached_query tGet tSet db query s0).2 := by
        rw [hg]
      rw [← h2]
      exact QRCache.CacheReachable.step_get tGet query ih
    · rw [h2]
      split
      · exact QRCache.CacheReachable.step_set _ _ _
          (QRCache.CacheReachable.step_get tGet query ih)
      · exact QRCache.CacheReachable.step_get tGet query ih

lemma selectOnly_get {V : Type} {s : QRCache V} (h : SelectOnly s)
    (now : ℚ) (q : String) : SelectOnly (QRCache.get now q s).2 := by
  unfold QRCache.get
  cases hl : QRCache.lookup q s.cache with
  | none => exact h
  | some tv =>
    obtain ⟨ts, w⟩ := tv
    dsimp only
    split
    · intro e he
      exact h e (List.Sublist.subset (List.eraseP_sublist _) he)
    · intro e he
      exact h e (QRCache.mem_odMoveToEnd he)

lemma selectOnly_set {V : Type} {s : QRCache V} (h : SelectOnly s)
    {q : String} (hq : isSelectQuery q = true) (now : ℚ) (v : V) :
    SelectOnly (QRCache.set now q v s) := by
  unfold QRCache.set
  dsimp only
  have hmem : ∀ e ∈ QRCache.odMoveToEnd q (QRCache.odAssign q (now, v) s.cache),
      isSelectQuery e.1 = true := by
    intro e he
    rcases QRCache.mem_odAssign (QRCache.mem_odMoveToEnd he) with hmem | rfl
    · exact h e hmem
    · exact hq
  split
  · intro e he
    exact hmem e (List.Sublist.subset (List.tail_sublist _) he)
  · intro e he
    exact hmem e he

/-- Every reachable executor cache holds only SELECT-keyed entries. -/
lemma execReachable_selectOnly {V : Type} {s : QRCache V}
    (h : ExecReachable s) : SelectOnly s := by
  induction h with
  | init m t => intro e he; exact absurd he (List.not_mem_nil e)
  | step tGet tSet db query hs ih =>
    rename_i s0
    rcases exec_snd_cases tGet tSet db query s0 with ⟨r, hg⟩ | ⟨h1, h2⟩
    · have h2 : (QRCache.get tGet query s0).2 =
          (execute_cached_query tGet tSet db query s0).2 := by
        rw [hg]
      rw [← h2]
      exact selectOnly_get ih tGet query
    · rw [h2]
      split
      · rename_i hsel
        exact selectOnly_set (selectOnly_get ih tGet query) hsel tSet (db query)
      · exact selectOnly_get ih tGet query

/-- C5: over every sequence of executed statements, the query result
cache holds entries only for statements that begin, after trimming, with
SELECT (case-insensitive); and a single `execute_cached_query` call
leaves an entry for the executed statement in the cache exactly when the
statement is such a read statement. -/
theorem executeCachedQuery_caches_only_selects (V : Type) (s : QRCache V)
    (h : ExecReachable s) (tGet tSet : ℚ) (db : String → V) (query : String) :
    (∀ e ∈ s.cache, isSelectQuery e.1 = true) ∧
    (0 < s.max_size →
      ((∃ e ∈ (execute_cached_query tGet tSet db query s).2.cache, e.1 = query) ↔
        isSelectQuery query = true)) := by
  refine ⟨execReachable_selectOnly h, ?_⟩
  intro hmax
  constructor
  · rintro ⟨e, he, hek⟩
    have hafter : SelectOnly (execute_cached_query tGet tSet db query s).2 :=
      execReachable_selectOnly (ExecReachable.step tGet tSet db query h)
    rw [← hek]
    exact hafter e he
  · intro hsel
    rcases exec_snd_cases tGet tSet db query s with ⟨r, hg⟩ | ⟨h1, h2⟩
    · exact QRCache.get_some_mem hg
    · rw [h2, if_pos hsel]
      have hcr : QRCache.CacheReachable (QRCache.get tGet query s).2 :=
        QRCache.CacheReachable.step_get tGet query (execReachable_cacheReachable h)
      obtain ⟨hnd, -⟩ := QRCache.cacheReachable_cinv hcr
      have hmax2 : 0 < (QRCache.get tGet query s).2.max_size := by
        rw [QRCache.get_max_size]
        exact hmax
      have hl := @QRCache.lookup_set V tSet query (db query) _ hnd hmax2
      exact ⟨(query, (tSet, db query)),
        List.mem_of_find?_eq_some (QRCache.find?_of_lookup hl), rfl⟩

/-- C5 witness: the caching law applied to the fresh optimizer cache and
one concrete SELECT statement. -/
theorem executeCachedQuery_caches_only_selects_witness :
    let s : QRCache ℕ := ⟨[], 1000, 300⟩
    (∀ e ∈ s.cache, isSelectQuery e.1 = true) ∧
    (0 < s.max_size →
      ((∃ e ∈ (execute_cached_query 0 1 (fun _ => 42) "  select name from users" s).2.cache,
          e.1 = "  select name from users") ↔
        isSelectQuery "  select name from users" = true)) :=
  executeCachedQuery_caches_only_selects ℕ _ (ExecReachable.init 1000 300) 0 1 _ _

/-! ## Regular-expression engine

A small derivative-based matcher covering exactly the constructs used by
the catalogued patterns of `DynamicComplexityRouter`: literal characters,
`\s`, `\w`, `.` (any character except newline), concatenation,
alternation, `*`, `+` and `?`.  `reSearch` is `re.search`: the pattern
matches some substring.  Patterns matched with `re.IGNORECASE` (and the
catalogues matched against `query.lower()`) are modelled by matching the
lower-cased text against lower-cased patterns.  A regex that is a plain
alternation of literals is modelled directly as substring search
(`litAny`), which is what `re.search` computes for it. -/

/-- Python word characters `[a-zA-Z0-9_]` (`\w`, ASCII). -/
def isWordChar (d : Char) : Bool :=
  decide (('a' ≤ d ∧ d ≤ 'z') ∨ ('A' ≤ d ∧ d ≤ 'Z') ∨ ('0' ≤ d ∧ d ≤ '9') ∨ d = '_')

inductive CClass where
  | lit (c : Char)
  | space
  | wordc
  | dot

def CClass.matches : CClass → Char → Bool
  | .lit c, d => c == d
  | .space, d => pyIsSpace d
  | .wordc, d => isWordChar d
  | .dot, d => !(d == '\n')

inductive RE where
  | zero
  | eps
  | cls (c : CClass)
  | seq (a b : RE)
  | alt (a b : RE)
  | star (a : RE)

def RE.nullable : RE → Bool
  | .zero => false
  | .eps => true
  | .cls _ => false
  | .seq a b => a.nullable && b.nullable
  | .alt a b => a.nullable || b.nullable
  | .star _ => true

def RE.deriv : RE → Char → RE
  | .zero, _ => .zero
  | .eps, _ => .zero
  | .cls cc, ch => if cc.matches ch then .eps else .zero
  | .seq a b, ch =>
      if a.nullable then .alt (.seq (a.deriv ch) b) (b.deriv ch)
      else .seq (a.deriv ch) b
  | .alt a b, ch => .alt (a.deriv ch) (b.deriv ch)
  | .star a, ch => .seq (a.deriv ch) (.star a)

/-- Does the pattern match some prefix of the text. -/
def RE.scanMatch : RE → List Char → Bool
  | r, [] => r.nullable
  | r, c :: cs => r.nullable || (r.deriv c).scanMatch cs

/-- `re.search`: does the pattern match anywhere in the text. -/
def reSearch (r : RE) (s : List Char) : Bool :=
  s.tails.any fun t => r.scanMatch t

def strRE (s : String) : RE :=
  s.data.foldr (fun c r => .seq (.cls (.lit c)) r) .eps

def seqList (rs : List RE) : RE := rs.foldr .seq .eps

def plusRE (r : RE) : RE := .seq r (.star r)

def optRE (r : RE) : RE := .alt r .eps

def spacesP : RE := plusRE (.cls .space)

def anyCharsP : RE := plusRE (.cls .dot)

def wordCharsP : RE := plusRE (.cls .wordc)

/-- A pattern as a Boolean matcher on (lower-cased) text. -/
abbrev Matcher := List Char → Bool

/-- Substring occurrence test. -/
def containsSub (pat s : List Char) : Bool :=
  s.tails.any fun t => pat.isPrefixOf t

/-- `re.search` of an alternation of literals: some literal occurs as a
substring. -/
def litAny (pats : List String) : Matcher := fun s =>
  pats.any fun p => containsSub p.data s

def reOf (r : RE) : Matcher := fun s => reSearch r s

/-! ## Complexity analyzer (`DynamicComplexityRouter` in optimizations.py)

`analyze_complexity` is modelled as the pure scoring computation; the
`ComplexityCache` in front of it only replays previously computed results
and is not needed for the claims about scores.  Floats are rationals. -/

/-- `DynamicComplexityRouter.COMPLEX_PATTERNS`, matched against
`query.lower()`. -/
def COMPLEX_PATTERNS : List Matcher := [
  litAny ["trend", "pattern", "correlation", "compare", "group by", "pivot",
    "predict", "forecast"],
  litAny ["change over time", "growth rate", "percentage", "ratio", "proportion"],
  litAny ["rank", "top", "bottom", "percentile", "outlier", "anomaly",
    "distribution"],
  litAny ["segment", "cohort", "category breakdown", "detailed analysis"],
  litAny ["advanced", "complex", "sophisticated", "in-depth"],
  litAny ["analyze", "insight", "metrics", "dashboard", "visualization",
    "data mining"],
  litAny ["statistics", "statistical", "regression", "classification",
    "clustering"],
  litAny ["time series", "seasonality", "benchmark", "performance indicator"],
  litAny ["multi-dimensional", "cross-tabulation", "stratification",
    "aggregation"]]

/-- `DynamicComplexityRouter.SQL_COMPLEXITY_MARKERS`, matched with
`re.IGNORECASE` (lower-cased here). -/
def SQL_COMPLEXITY_MARKERS : List Matcher := [
  reOf (seqList [strRE "with", spacesP, anyCharsP, spacesP, strRE "as"]),
  reOf (seqList [strRE "partition", spacesP, strRE "by"]),
  reOf (seqList [strRE "over", .star (.cls .space), strRE "("]),
  reOf (seqList [strRE "join", anyCharsP, strRE "join"]),
  reOf (seqList [strRE "case", spacesP, strRE "when"]),
  litAny ["union", "intersect", "except"],
  reOf (seqList [strRE "group", spacesP, strRE "by", anyCharsP, strRE "having"]),
  litAny ["row_number()", "rank()", "dense_rank()"],
  litAny ["coalesce", "nullif", "isnull"],
  litAny ["substring", "replace", "upper", "lower"],
  litAny ["extract", "date_part", "dateadd"],
  litAny ["lag()", "lead()", "first_value()", "last_value()"],
  litAny ["cube", "rollup"],
  litAny ["pivot", "unpivot"],
  litAny ["recursive"],
  reOf (.alt (seqList [strRE "json_", .star (.cls .dot), strRE "()"])
             (seqList [strRE "xml_", .star (.cls .dot), strRE "()"])),
  reOf (seqList [strRE "percentile_", .star (.cls .dot), strRE "()"])]

/-- The four `self.domain_patterns` catalogues (insertion order
preserved), matched with `re.IGNORECASE`. -/
def sql_matchers : List Matcher := [
  litAny ["select", "insert", "update", "delete", "create", "alter", "drop"],
  reOf (seqList [strRE "from", spacesP, wordCharsP,
    optRE (seqList [spacesP, strRE "join"])]),
  reOf (seqList [strRE "where", spacesP, wordCharsP]),
  litAny ["group by", "order by", "having"]]

def data_science_matchers : List Matcher := [
  litAny ["machine learning", "neural network", "deep learning", "ai",
    "artificial intelligence"],
  litAny ["regression", "classification", "clustering", "nlp",
    "natural language processing"],
  litAny ["train", "model", "algorithm", "feature", "dataset", "prediction",
    "accuracy"],
  litAny ["correlation", "causation", "hypothesis", "confidence interval",
    "p-value"]]

def reporting_matchers : List Matcher := [
  litAny ["report", "dashboard", "visualization", "chart", "graph", "plot"],
  litAny ["kpi", "key performance indicator", "metric", "measure", "benchmark"],
  litAny ["daily", "weekly", "monthly", "quarterly", "yearly", "annual"],
  litAny ["trend", "comparison", "breakdown", "summary"]]

def simple_lookup_matchers : List Matcher := [
  litAny ["find", "get", "retrieve", "show", "list", "display"],
  litAny ["lookup", "search", "select"],
  litAny ["simple", "basic", "quick"],
  litAny ["single", "one", "individual"]]

def domain_patterns : List (String × List Matcher) := [
  ("sql", sql_matchers),
  ("data_science", data_science_matchers),
  ("reporting", reporting_matchers),
  ("simple_lookup", simple_lookup_matchers)]

/-- `self.domain_modifiers`. -/
def domain_modifiers : List (String × ℚ) := [
  ("sql", 15/100),
  ("data_science", 20/100),
  ("reporting", 10/100),
  ("simple_lookup", -(5/100))]

/-- `DynamicComplexityRouter._detect_domain`: per-domain match fraction,
best domain above the 0.3 floor (strictly), scanned in insertion
order. -/
def detect_domain (query : String) : Option String :=
  let lower := pyLower query.data
  let domain_scores := domain_patterns.map fun dp =>
    (dp.1, ((dp.2.countP fun p => p lower : ℕ) : ℚ) / dp.2.length)
  let best := domain_scores.foldl
    (fun acc ds => if ds.2 > acc.2 then (some ds.1, ds.2) else acc)
    ((none : Option String), (3/10 : ℚ))
  best.1

/-- The four dimension scores of `analyze_complexity`. -/
structure Dimensions where
  length : ℚ
  patterns : ℚ
  sql_complexity : ℚ
  cognitive_load : ℚ

/-- `DynamicComplexityRouter.analyze_complexity` (pure computation; the
complexity cache merely replays previous outputs). -/
def analyze_complexity (query : String) : ℚ × Dimensions :=
  let lower := pyLower query.data
  let token_count := (pyTokens query.data).length
  let dLength : ℚ := min ((token_count : ℚ) / 50) 1
  let pattern_matches := COMPLEX_PATTERNS.countP fun p => p lower
  let dPatterns : ℚ := min ((pattern_matches : ℚ) / COMPLEX_PATTERNS.length) 1
  let sql_markers := SQL_COMPLEXITY_MARKERS.countP fun p => p lower
  let dSql : ℚ := min ((sql_markers : ℚ) / SQL_COMPLEXITY_MARKERS.length) 1
  let sentences := splitPunct query.data
  let avg_words_per_sentence : ℚ :=
    ((sentences.filter fun sn => !(pyStrip sn).isEmpty).map
      fun sn => ((pyTokens sn).length : ℚ)).sum / (max sentences.length 1 : ℕ)
  let dCog : ℚ := min (avg_words_per_sentence / 20) 1
  let overall_score : ℚ :=
    dLength * (15/100) + dPatterns * (45/100) +
      dSql * (30/100) + dCog * (10/100)
  let final_score : ℚ :=
    match detect_domain query with
    | some d =>
      match (domain_modifiers.find? fun m => m.1 == d).map Prod.snd with
      | some modifier => min (max (overall_score + modifier) 0) 1
      | none => overall_score
    | none => overall_score
  (final_score, ⟨dLength, dPatterns, dSql, dCog⟩)

/-- `DynamicComplexityRouter.should_use_complex_model`: score at or above
the threshold selects the accurate backend. -/
def should_use_complex_model (threshold : ℚ) (query : String) : Bool :=
  decide ((analyze_complexity query).1 ≥ threshold)

/-- Domain detection on the scenario query: the SQL catalogue matches 2 of
4 patterns (keyword list and `FROM`-clause shape), beating the 0.3 floor
and the other domains. -/
lemma detect_domain_select_orders : detect_domain "SELECT * FROM orders" = some "sql" := by
  unfold detect_domain
  dsimp only
  simp only [domain_patterns, List.map]
  rw [show (sql_matchers.countP fun p => p (pyLower "SELECT * FROM orders".data)) = 2
        from by decide,
      show (data_science_matchers.countP fun p =>
        p (pyLower "SELECT * FROM orders".data)) = 0 from by decide,
      show (reporting_matchers.countP fun p =>
        p (pyLower "SELECT * FROM orders".data)) = 0 from by decide,
      show (simple_lookup_matchers.countP fun p =>
        p (pyLower "SELECT * FROM orders".data)) = 1 from by decide,
      show sql_matchers.length = 4 from rfl,
      show data_science_matchers.length = 4 from rfl,
      show reporting_matchers.length = 4 from rfl,
      show simple_lookup_matchers.length = 4 from rfl]
  simp only [List.foldl]
  norm_num

/-- The exact score of the scenario query: 4 tokens, no complexity or SQL
markers, one 4-word sentence, then the +0.15 SQL domain modifier:
(4/50)(0.15) + (4/20)(0.10) + 0.15 = 0.182. -/
lemma analyze_select_orders_score :
    (analyze_complexity "SELECT * FROM orders").1 = 91/500 := by
  unfold analyze_complexity
  dsimp only
  rw [detect_domain_select_orders]
  dsimp only
  have hmod : ((domain_modifiers.find? fun m => m.1 == "sql").map Prod.snd) =
      some (15/100) := by
    simp only [domain_modifiers]
    rw [List.find?_cons_of_pos _ (by decide)]
    rfl
  rw [hmod]
  dsimp only
  rw [show (pyTokens "SELECT * FROM orders".data).length = 4 from by decide,
      show (COMPLEX_PATTERNS.countP fun p => p (pyLower "SELECT * FROM orders".data)) = 0
        from by decide,
      show (SQL_COMPLEXITY_MARKERS.countP fun p =>
        p (pyLower "SELECT * FROM orders".data)) = 0 from by decide,
      show splitPunct "SELECT * FROM orders".data = ["SELECT * FROM orders".data]
        from by decide,
      show COMPLEX_PATTERNS.length = 9 from rfl,
      show SQL_COMPLEXITY_MARKERS.length = 17 from rfl]
  rw [show (["SELECT * FROM orders".data].filter fun sn => !(pyStrip sn).isEmpty) =
      ["SELECT * FROM orders".data] from by decide]
  simp only [List.map, List.sum_cons, List.sum_nil, List.length_cons, List.length_nil]
  rw [show (pyTokens "SELECT * FROM orders".data).length = 4 from by decide]
  norm_num [min_def, max_def]

/-- C6 counterexample: the claim puts the overall score of
`SELECT * FROM orders` at approximately 0.0 to 0.1, but the code scores it
0.182: the SQL domain is detected (2 of 4 catalogue patterns match) and
the +0.15 domain modifier is added to the 0.032 base score. -/
theorem analyzeComplexity_select_orders_counterexample :
    (analyze_complexity "SELECT * FROM orders").1 = 91/500 ∧
    ¬ ((analyze_complexity "SELECT * FROM orders").1 ≤ 1/10) := by
  refine ⟨analyze_select_orders_score, ?_⟩
  rw [analyze_select_orders_score]
  norm_num

/-- C6 (amended): the scenario query scores exactly 0.182 = 91/500 (base
0.032 plus the +0.15 SQL domain modifier); that is still below the default
threshold 0.25, so the router selects the fast backend. -/
theorem analyzeComplexity_select_orders_routes_fast :
    (analyze_complexity "SELECT * FROM orders").1 = 91/500 ∧
    should_use_complex_model (25/100) "SELECT * FROM orders" = false := by
  refine ⟨analyze_select_orders_score, ?_⟩
  unfold should_use_complex_model
  rw [analyze_select_orders_score]
  exact decide_eq_false (by norm_num)

set_option maxHeartbeats 1600000 in
/-- C8: for every query, the overall complexity score and each of the four
dimension scores (length, patterns, sql complexity, cognitive load) lie in
the unit interval, whether or not a domain modifier is applied. -/
theorem analyzeComplexity_scores_in_unit_interval (query : String) :
    (0 ≤ (analyze_complexity query).1 ∧ (analyze_complexity query).1 ≤ 1) ∧
    (0 ≤ (analyze_complexity query).2.length ∧ (analyze_complexity query).2.length ≤ 1) ∧
    (0 ≤ (analyze_complexity query).2.patterns ∧ (analyze_complexity query).2.patterns ≤ 1) ∧
    (0 ≤ (analyze_complexity query).2.sql_complexity ∧
      (analyze_complexity query).2.sql_complexity ≤ 1) ∧
    (0 ≤ (analyze_complexity query).2.cognitive_load ∧
      (analyze_complexity query).2.cognitive_load ≤ 1) := by
  have hclamp : ∀ x : ℚ, 0 ≤ x → 0 ≤ min x 1 ∧ min x 1 ≤ 1 := fun x hx =>
    ⟨le_min hx zero_le_one, min_le_right x 1⟩
  have hL := hclamp (((pyTokens query.data).length : ℚ) / 50) (by positivity)
  have hP := hclamp
    (((COMPLEX_PATTERNS.countP fun p => p (pyLower query.data)) : ℚ) /
      COMPLEX_PATTERNS.length) (by positivity)
  have hS := hclamp
    (((SQL_COMPLEXITY_MARKERS.countP fun p => p (pyLower query.data)) : ℚ) /
      SQL_COMPLEXITY_MARKERS.length) (by positivity)
  have hsum : 0 ≤ (((splitPunct query.data).filter fun sn => !(pyStrip sn).isEmpty).map
      fun sn => ((pyTokens sn).length : ℚ)).sum := by
    apply List.sum_nonneg
    intro x hx
    obtain ⟨sn, -, rfl⟩ := List.mem_map.mp hx
    positivity
  have hC := hclamp
    ((((splitPunct query.data).filter fun sn => !(pyStrip sn).isEmpty).map
        fun sn => ((pyTokens sn).length : ℚ)).sum /
      ((max (splitPunct query.data).length 1 : ℕ) : ℚ) / 20)
    (div_nonneg (div_nonneg hsum (by positivity)) (by norm_num))
  have hover : ∀ a b c d : ℚ, 0 ≤ a → a ≤ 1 → 0 ≤ b → b ≤ 1 → 0 ≤ c → c ≤ 1 →
      0 ≤ d → d ≤ 1 →
      0 ≤ a * (15/100) + b * (45/100) + c * (30/100) + d * (10/100) ∧
      a * (15/100) + b * (45/100) + c * (30/100) + d * (10/100) ≤ 1 := by
    intro a b c d h1 h2 h3 h4 h5 h6 h7 h8
    constructor <;> nlinarith
  unfold analyze_complexity
  dsimp only
  refine ⟨?_, hL, hP, hS, hC⟩
  cases hd : detect_domain query with
  | none =>
    dsimp only
    exact hover _ _ _ _ hL.1 hL.2 hP.1 hP.2 hS.1 hS.2 hC.1 hC.2
  | some d =>
    dsimp only
    cases hm : (domain_modifiers.find? fun m => m.1 == d).map Prod.snd with
    | none =>
      dsimp only
      exact hover _ _ _ _ hL.1 hL.2 hP.1 hP.2 hS.1 hS.2 hC.1 hC.2
    | some modifier =>
      dsimp only
      constructor
      · exact le_min (le_max_right _ 0) zero_le_one
      · exact min_le_right _ 1

/-! ## Performance monitor and threshold calibrator
(`PerformanceMonitor`, `ThresholdCalibrator` in optimizations.py)

`metrics["selections"]` and `metrics["feedback"]` are the two append-only
record lists; the ISO timestamp fields are carried by the source records
but never inspected by the aggregation or calibration logic, so they are
omitted from the embedding.  The log file write is an oracle
`write : Metrics → Except String Unit`; the `except (OSError, IOError)`
handler of `_save_metrics` is the `match` in `save_metrics`. -/

structure SelectionRecord where
  query : String
  complexity : ℚ
  selected_model : String
deriving DecidableEq

structure FeedbackRecord where
  query : String
  rating : ℤ
  comments : Option String
deriving DecidableEq

structure Metrics where
  selections : List SelectionRecord
  feedback : List FeedbackRecord
deriving DecidableEq

/-- The `selection_map` of `get_model_performance_metrics`: a Python dict
keyed by query text, filled by iterating the selections so that a later
selection overwrites an earlier one with the same query text. -/
def lastSelectionFor (sels : List SelectionRecord) (q : String) : Option SelectionRecord :=
  sels.foldl (fun acc sel => if sel.query == q then some sel else acc) none

/-- The `ratings` list accumulated per model by
`get_model_performance_metrics`: each feedback record joined by query text
to its (most recent) selection contributes its rating to the selected
model, in feedback order.  A model absent from the map yields `[]`
(`metrics.get(model, {}).get("ratings", [])`). -/
def ratingsFor (model : String) (m : Metrics) : List ℤ :=
  m.feedback.filterMap fun fb =>
    match lastSelectionFor m.selections fb.query with
    | some sel => if sel.selected_model == model then some fb.rating else none
    | none => none

/-- `get_complexity_distribution`: complexity scores of all selections per
model, in selection order (`complexity_dist.get(model, [])`). -/
def complexityDist (model : String) (m : Metrics) : List ℚ :=
  (m.selections.filter fun sel => sel.selected_model == model).map
    fun sel => sel.complexity

/-- `_save_metrics`: the write failure is caught (`except (OSError,
IOError)`) and reported as a printed log line; the caller always gets the
log lines back, never an exception. -/
def save_metrics (write : Metrics → Except String Unit) (m : Metrics) : List String :=
  match write m with
  | .ok _ => []
  | .error e => ["Error saving metrics: " ++ e]

/-- `PerformanceMonitor.record_feedback`: clamp the rating into 1..5,
append the record in memory, then persist. -/
def record_feedback (write : Metrics → Except String Unit) (m : Metrics)
    (query : String) (rating : ℤ) (comments : Option String) :
    Metrics × List String :=
  let record : FeedbackRecord := ⟨query, max 1 (min 5 rating), comments⟩
  let m2 : Metrics := { m with feedback := m.feedback ++ [record] }
  (m2, save_metrics write m2)

/-- `PerformanceMonitor.record_selection`: append the record in memory,
then persist. -/
def record_selection (write : Metrics → Except String Unit) (m : Metrics)
    (query : String) (complexity : ℚ) (selected_model : String) :
    Metrics × List String :=
  let record : SelectionRecord := ⟨query, complexity, selected_model⟩
  let m2 : Metrics := { m with selections := m.selections ++ [record] }
  (m2, save_metrics write m2)

/-- The cap-and-clamp tail shared verbatim by both branches of
`ThresholdCalibrator.suggest_threshold`: limit the move to ±0.05, then
clamp into [0.1, 0.5]. -/
def capClampStep (current suggested : ℚ) : ℚ :=
  let max_change : ℚ := 5/100
  let delta := suggested - current
  let delta2 := if |delta| > max_change
    then (if delta > 0 then max_change else -max_change) else delta
  let new_threshold := current + delta2
  max (1/10) (min (1/2) new_threshold)

/-- `ThresholdCalibrator.suggest_threshold`.  `int(len * 0.75)` and
`int(len * 0.25)` are exact in binary floating point and truncate to
`3 * len / 4` and `len / 4` in natural division.  The calibration-history
append does not affect the returned threshold and is omitted. -/
def suggest_threshold (min_samples : ℕ) (current_threshold : ℚ)
    (monitor : Metrics) : ℚ :=
  let simple_ratings := ratingsFor "llama3.1:8b" monitor
  let complex_ratings := ratingsFor "mistral-nemo:12b" monitor
  if simple_ratings.length < min_samples ∨ complex_ratings.length < min_samples then
    current_threshold
  else
    let simple_avg : ℚ := ((simple_ratings.map fun r => (r : ℚ)).sum) / simple_ratings.length
    let complex_avg : ℚ := ((complex_ratings.map fun r => (r : ℚ)).sum) / complex_ratings.length
    let simple_complexities := complexityDist "llama3.1:8b" monitor
    let complex_complexities := complexityDist "mistral-nemo:12b" monitor
    if simple_complexities.isEmpty ∨ complex_complexities.isEmpty then
      current_threshold
    else if complex_avg > simple_avg then
      let sorted := List.insertionSort (· ≤ ·) simple_complexities
      let idx := min (simple_complexities.length * 3 / 4) (simple_complexities.length - 1)
      let suggested := sorted.getD idx 0
      capClampStep current_threshold suggested
    else
      let sorted := List.insertionSort (· ≤ ·) complex_complexities
      let idx := min (complex_complexities.length / 4) (complex_complexities.length - 1)
      let suggested := sorted.getD idx 0
      capClampStep current_threshold suggested

/-- From a starting threshold inside [0.1, 0.5], one cap-and-clamp step
moves by at most 0.05 and stays inside [0.1, 0.5]. -/
lemma capClampStep_bound (t s : ℚ) (h1 : 1/10 ≤ t) (h2 : t ≤ 1/2) :
    |capClampStep t s - t| ≤ 5/100 ∧ 1/10 ≤ capClampStep t s ∧
    capClampStep t s ≤ 1/2 := by
  unfold capClampStep
  dsimp only
  set d2 := if |s - t| > (5/100 : ℚ) then (if s - t > 0 then (5/100 : ℚ) else -(5/100)) else s - t
    with hd2def
  have hd2abs : |d2| ≤ 5/100 := by
    rw [hd2def]
    split
    · split
      · rw [abs_of_pos (by norm_num)]
      · rw [abs_neg, abs_of_pos (by norm_num)]
    · rename_i hle
      exact le_of_not_lt hle
  have hd2 := abs_le.mp hd2abs
  refine ⟨?_, le_max_left _ _, max_le (by norm_num) (min_le_left _ _)⟩
  rcases le_total (t + d2) (1/10) with hc | hc
  · have hr : max (1/10) (min (1/2) (t + d2)) = 1/10 := by
      rw [min_eq_right (le_trans hc (by norm_num)), max_eq_left hc]
    rw [hr, abs_le]
    constructor <;> linarith
  · rcases le_total (t + d2) (1/2) with hc2 | hc2
    · have hr : max (1/10) (min (1/2) (t + d2)) = t + d2 := by
        rw [min_eq_right hc2, max_eq_right hc]
      rw [hr, abs_le]
      constructor <;> linarith
    · have hr : max (1/10) (min (1/2) (t + d2)) = 1/2 := by
        rw [min_eq_left hc2, max_eq_right (by norm_num)]
      rw [hr, abs_le]
      constructor <;> linarith

/-- C1 (amended): for a starting threshold within [0.1, 0.5] (the
documented range of the routing threshold), one `suggest_threshold` call
moves the threshold by at most 0.05 in absolute value and returns a value
within [0.1, 0.5]; and whenever either backend has fewer than
`min_samples` joined ratings, the current threshold is returned
unchanged.  The positivity of `min_samples` keeps the model inside the
domain of the source, which would divide by zero if the sample gate
passed with empty rating lists. -/
theorem suggestThreshold_bounded_calibration (monitor : Metrics) (t : ℚ) (n : ℕ)
    (hn : 0 < n) (h1 : 1/10 ≤ t) (h2 : t ≤ 1/2) :
    |suggest_threshold n t monitor - t| ≤ 5/100 ∧
    1/10 ≤ suggest_threshold n t monitor ∧
    suggest_threshold n t monitor ≤ 1/2 ∧
    ((ratingsFor "llama3.1:8b" monitor).length < n ∨
      (ratingsFor "mistral-nemo:12b" monitor).length < n →
      suggest_threshold n t monitor = t) := by
  unfold suggest_threshold
  dsimp only
  by_cases hgate : (ratingsFor "llama3.1:8b" monitor).length < n ∨
      (ratingsFor "mistral-nemo:12b" monitor).length < n
  · rw [if_pos hgate]
    refine ⟨?_, h1, h2, fun _ => rfl⟩
    rw [sub_self, abs_zero]
    norm_num
  · rw [if_neg hgate]
    split
    · exact ⟨by rw [sub_self, abs_zero]; norm_num, h1, h2, fun hcon => absurd hcon hgate⟩
    · split
      · obtain ⟨b1, b2, b3⟩ := capClampStep_bound t
          ((List.insertionSort (· ≤ ·) (complexityDist "llama3.1:8b" monitor)).getD
            (min ((complexityDist "llama3.1:8b" monitor).length * 3 / 4)
              ((complexityDist "llama3.1:8b" monitor).length - 1)) 0) h1 h2
        exact ⟨b1, b2, b3, fun hcon => absurd hcon hgate⟩
      · obtain ⟨b1, b2, b3⟩ := capClampStep_bound t
          ((List.insertionSort (· ≤ ·) (complexityDist "mistral-nemo:12b" monitor)).getD
            (min ((complexityDist "mistral-nemo:12b" monitor).length / 4)
              ((complexityDist "mistral-nemo:12b" monitor).length - 1)) 0) h1 h2
        exact ⟨b1, b2, b3, fun hcon => absurd hcon hgate⟩

/-- C1 witness: with no recorded data the sample gate fails and the
threshold 0.25 is returned unchanged, trivially within the bounds. -/
theorem suggestThreshold_bounded_calibration_witness :
    |suggest_threshold 20 (1/4) ⟨[], []⟩ - 1/4| ≤ 5/100 ∧
    1/10 ≤ suggest_threshold 20 (1/4) ⟨[], []⟩ ∧
    suggest_threshold 20 (1/4) ⟨[], []⟩ ≤ 1/2 ∧
    ((ratingsFor "llama3.1:8b" ⟨[], []⟩).length < 20 ∨
      (ratingsFor "mistral-nemo:12b" ⟨[], []⟩).length < 20 →
      suggest_threshold 20 (1/4) ⟨[], []⟩ = 1/4) :=
  suggestThreshold_bounded_calibration ⟨[], []⟩ (1/4) 20 (by norm_num)
    (by norm_num) (by norm_num)

/-- C1 counterexample: from the starting threshold 0.9 (outside
[0.1, 0.5]) with one joined rating per backend (`min_samples = 1`) and the
accurate backend rated higher, the call returns 0.5: the clamp moves the
stored threshold by 0.4, far more than the claimed 0.05 cap. -/
theorem suggestThreshold_counterexample :
    ¬ (|suggest_threshold 1 (9/10)
        ⟨[⟨"a", 0, "llama3.1:8b"⟩, ⟨"b", 1, "mistral-nemo:12b"⟩],
          [⟨"a", 2, none⟩, ⟨"b", 5, none⟩]⟩ - 9/10| ≤ 5/100) := by
  have hval : suggest_threshold 1 (9/10)
      ⟨[⟨"a", 0, "llama3.1:8b"⟩, ⟨"b", 1, "mistral-nemo:12b"⟩],
        [⟨"a", 2, none⟩, ⟨"b", 5, none⟩]⟩ = 1/2 := by
    unfold suggest_threshold
    dsimp only
    rw [show ratingsFor "llama3.1:8b"
        ⟨[⟨"a", 0, "llama3.1:8b"⟩, ⟨"b", 1, "mistral-nemo:12b"⟩],
          [⟨"a", 2, none⟩, ⟨"b", 5, none⟩]⟩ = [2] from by decide,
      show ratingsFor "mistral-nemo:12b"
        ⟨[⟨"a", 0, "llama3.1:8b"⟩, ⟨"b", 1, "mistral-nemo:12b"⟩],
          [⟨"a", 2, none⟩, ⟨"b", 5, none⟩]⟩ = [5] from by decide,
      show complexityDist "llama3.1:8b"
        ⟨[⟨"a", 0, "llama3.1:8b"⟩, ⟨"b", 1, "mistral-nemo:12b"⟩],
          [⟨"a", 2, none⟩, ⟨"b", 5, none⟩]⟩ = [0] from by decide,
      show complexityDist "mistral-nemo:12b"
        ⟨[⟨"a", 0, "llama3.1:8b"⟩, ⟨"b", 1, "mistral-nemo:12b"⟩],
          [⟨"a", 2, none⟩, ⟨"b", 5, none⟩]⟩ = [1] from by decide]
    rw [if_neg (by simp)]
    rw [if_neg (by simp)]
    rw [if_pos (by
      simp only [List.map, List.sum_cons, List.sum_nil, List.length_cons,
        List.length_nil]
      norm_num)]
    rw [show List.insertionSort (· ≤ ·) [(0 : ℚ)] = [0] from rfl]
    rw [show min ((([0] : List ℚ).length) * 3 / 4) ((([0] : List ℚ).length) - 1) = 0
        from rfl]
    rw [show ([(0 : ℚ)].getD 0 0) = 0 from rfl]
    unfold capClampStep
    dsimp only
    rw [if_pos (by
      rw [show (0 : ℚ) - 9/10 = -(9/10) by norm_num, abs_neg,
        abs_of_nonneg (by norm_num : (0:ℚ) ≤ 9/10)]
      norm_num)]
    rw [if_neg (by norm_num)]
    rw [min_eq_left (by norm_num), max_eq_right (by norm_num)]
  rw [hval]
  rw [show (1 : ℚ)/2 - 9/10 = -(2/5) by norm_num, abs_neg,
    abs_of_nonneg (by norm_num : (0:ℚ) ≤ 2/5)]
  norm_num

/-- C9: whatever the log write oracle does — including failing — both
`record_selection` and `record_feedback` append the record to the
in-memory metrics and return normally (the handler in `_save_metrics`
catches the failure): the in-memory result does not depend on the write
outcome, and a failing write is reported as the printed error line rather
than raised. -/
theorem monitor_log_failure_does_not_block
    (write₁ write₂ : Metrics → Except String Unit) (m : Metrics)
    (q : String) (rating : ℤ) (comments : Option String)
    (complexity : ℚ) (model : String) :
    ((record_feedback write₁ m q rating comments).1.feedback =
      m.feedback ++ [⟨q, max 1 (min 5 rating), comments⟩]) ∧
    ((record_selection write₁ m q complexity model).1.selections =
      m.selections ++ [⟨q, complexity, model⟩]) ∧
    ((record_feedback write₁ m q rating comments).1 =
      (record_feedback write₂ m q rating comments).1) ∧
    ((record_selection write₁ m q complexity model).1 =
      (record_selection write₂ m q complexity model).1) ∧
    (∀ e, write₁ { m with feedback :=
        m.feedback ++ [⟨q, max 1 (min 5 rating), comments⟩] } = .error e →
      (record_feedback write₁ m q rating comments).2 =
        ["Error saving metrics: " ++ e]) := by
  refine ⟨rfl, rfl, rfl, rfl, ?_⟩
  intro e he
  unfold record_feedback save_metrics
  dsimp only
  rw [he]

/-- C9 witness: a concrete always-failing writer still yields the appended
in-memory record and the logged error line. -/
theorem monitor_log_failure_does_not_block_witness :
    ((record_feedback (fun _ => (Except.error "disk full" : Except String Unit))
        ⟨[], []⟩ "q" 9 (some "slow")).1.feedback =
      [] ++ [⟨"q", max 1 (min 5 9), some "slow"⟩]) ∧
    ((record_selection (fun _ => (Except.error "disk full" : Except String Unit))
        ⟨[], []⟩ "q" 0 "llama3.1:8b").1.selections =
      [] ++ [⟨"q", 0, "llama3.1:8b"⟩]) ∧
    ((record_feedback (fun _ => (Except.error "disk full" : Except String Unit))
        ⟨[], []⟩ "q" 9 (some "slow")).1 =
      (record_feedback (fun _ => (Except.ok () : Except String Unit))
        ⟨[], []⟩ "q" 9 (some "slow")).1) ∧
    ((record_selection (fun _ => (Except.error "disk full" : Except String Unit))
        ⟨[], []⟩ "q" 0 "llama3.1:8b").1 =
      (record_selection (fun _ => (Except.ok () : Except String Unit))
        ⟨[], []⟩ "q" 0 "llama3.1:8b").1) ∧
    (∀ e, (Except.error "disk full" : Except String Unit) = Except.error e →
      (record_feedback (fun _ => (Except.error "disk full" : Except String Unit))
        ⟨[], []⟩ "q" 9 (some "slow")).2 = ["Error saving metrics: " ++ e]) :=
  monitor_log_failure_does_not_block
    (fun _ => (Except.error "disk full" : Except String Unit))
    (fun _ => (Except.ok () : Except String Unit))
    ⟨[], []⟩ "q" 9 (some "slow") 0 "llama3.1:8b"

/-! ## Token optimization pipeline: context pruning
(`TokenOptimizationPipeline.prune_conversation_context` in
optimizations.py)

Messages carry their role (`getattr(msg, "type", "")`) and text content.
Python slices with possibly negative bounds are modelled by `pySliceTo`
and `pySliceFrom`.  `enumerate(non_system_messages[:-1])` is rendered as
iteration over the index range with positional lookup.  Python's
`list.sort(key=..., reverse=True)` is stable; since the scored entries
carry pairwise distinct indices in increasing order, the stable descending
sort coincides with sorting by the linear order `scoreOrder` (score
descending, index ascending on ties), which `List.insertionSort`
computes. -/

structure Message where
  type : String
  content : String
deriving DecidableEq, Inhabited

/-- Python slice `xs[:n]`, `n` possibly negative. -/
def pySliceTo {α : Type} (n : ℤ) (xs : List α) : List α :=
  if 0 ≤ n then xs.take n.toNat else xs.take (xs.length - n.natAbs)

/-- Python slice `xs[n:]`, `n` possibly negative. -/
def pySliceFrom {α : Type} (n : ℤ) (xs : List α) : List α :=
  if 0 ≤ n then xs.drop n.toNat else xs.drop (xs.length - min n.natAbs xs.length)

def systemMessages (messages : List Message) : List Message :=
  messages.filter fun msg => msg.type == "system"

def nonSystemMessages (messages : List Message) : List Message :=
  messages.filter fun msg => !(msg.type == "system")

/-- `set(content.lower().split())`. -/
def wordSet (content : String) : Finset (List Char) :=
  (pyTokens (pyLower content.data)).toFinset

/-- Relevance/recency score of the `i`-th (zero-based) non-system message:
0.7 × word-overlap with the last message + 0.3 × (i+1)/n. -/
def message_score (last_content : String) (n : ℕ) (i : ℕ) (msg : Message) : ℚ :=
  let words_last := wordSet last_content
  let words_this := wordSet msg.content
  let relevance : ℚ :=
    if words_this = ∅ ∨ words_last = ∅ then 0
    else ((words_this ∩ words_last).card : ℚ) /
      (max words_this.card words_last.card : ℕ)
  let recency_bonus : ℚ := ((i : ℚ) + 1) / n
  (7/10) * relevance + (3/10) * recency_bonus

/-- Score of index `i` among the non-system messages (the last message is
not scored; out-of-range lookups never occur at call sites). -/
def scoreAt (ns : List Message) (i : ℕ) : ℚ :=
  match ns.getLast? with
  | some last =>
      message_score last.content ns.length i ((pySliceTo (-1) ns).getD i default)
  | none => 0

/-- `message_scores`: `(index, score)` for every non-last non-system
message. -/
def messageScores (ns : List Message) : List (ℕ × ℚ) :=
  (List.range (pySliceTo (-1) ns).length).map fun i => (i, scoreAt ns i)

/-- Sort key of `message_scores.sort(key=lambda x: x[1], reverse=True)`:
score descending, original (index) order on ties. -/
def scoreOrder (a b : ℕ × ℚ) : Prop :=
  b.2 < a.2 ∨ (a.2 = b.2 ∧ a.1 ≤ b.1)

instance : DecidableRel scoreOrder := fun a b =>
  inferInstanceAs (Decidable (b.2 < a.2 ∨ (a.2 = b.2 ∧ a.1 ≤ b.1)))

instance : IsTotal (ℕ × ℚ) scoreOrder := ⟨by
  intro a b
  unfold scoreOrder
  rcases lt_trichotomy a.2 b.2 with h | h | h
  · right
    left
    exact h
  · rcases le_total a.1 b.1 with h2 | h2
    · left
      right
      exact ⟨h, h2⟩
    · right
      right
      exact ⟨h.symm, h2⟩
  · left
    left
    exact h⟩

instance : IsTrans (ℕ × ℚ) scoreOrder := ⟨by
  intro a b c hab hbc
  unfold scoreOrder at hab hbc ⊢
  rcases hab with h1 | ⟨h1, h1i⟩
  · rcases hbc with h2 | ⟨h2, h2i⟩
    · left
      exact lt_trans h2 h1
    · left
      rw [← h2]
      exact h1
  · rcases hbc with h2 | ⟨h2, h2i⟩
    · left
      rw [h1]
      exact h2
    · right
      exact ⟨h1.trans h2, le_trans h1i h2i⟩⟩

def sorted_scores (ns : List Message) : List (ℕ × ℚ) :=
  List.insertionSort scoreOrder (messageScores ns)

/-- `selected_indices = [idx for idx, _ in message_scores[:max_messages - 1]]`. -/
def selected_indices (ns : List Message) (max_messages : ℕ) : List ℕ :=
  (pySliceTo ((max_messages : ℤ) - 1) (sorted_scores ns)).map Prod.fst

/-- `selected_indices.sort()`. -/
def kept_indices (ns : List Message) (max_messages : ℕ) : List ℕ :=
  List.insertionSort (· ≤ ·) (selected_indices ns max_messages)

/-- `TokenOptimizationPipeline.prune_conversation_context`
(`max_tokens_estimate` is accepted and unused, as in the source). -/
def prune_conversation_context (messages : List Message) (max_messages : ℕ)
    (max_tokens_estimate : ℕ) : List Message :=
  let system_messages := systemMessages messages
  let non_system_messages := nonSystemMessages messages
  if non_system_messages.length ≤ max_messages then messages
  else
    match non_system_messages.getLast? with
    | some last_message =>
        let pruned_non_system :=
          (kept_indices non_system_messages max_messages).filterMap
            non_system_messages.get?
        system_messages ++ (pruned_non_system ++ [last_message])
    | none =>
        system_messages ++ pySliceFrom (-(max_messages : ℤ)) non_system_messages

lemma pySliceTo_neg_one {α : Type} (xs : List α) :
    pySliceTo (-1) xs = xs.dropLast := by
  unfold pySliceTo
  rw [if_neg (by norm_num), List.dropLast_eq_take]
  norm_num

lemma pySliceTo_coe_sub_one {α : Type} (xs : List α) {m : ℕ} (hm : 1 ≤ m) :
    pySliceTo ((m : ℤ) - 1) xs = xs.take (m - 1) := by
  unfold pySliceTo
  rw [if_pos (by omega)]
  congr 1
  omega

lemma mem_messageScores {ns : List Message} {p : ℕ × ℚ}
    (hp : p ∈ messageScores ns) :
    p.2 = scoreAt ns p.1 ∧ p.1 < ns.length - 1 := by
  unfold messageScores at hp
  obtain ⟨i, hi, rfl⟩ := List.mem_map.mp hp
  rw [pySliceTo_neg_one, List.length_dropLast] at hi
  exact ⟨rfl, List.mem_range.mp hi⟩

lemma messageScores_mem_of_lt {ns : List Message} {j : ℕ}
    (hj : j < ns.length - 1) : (j, scoreAt ns j) ∈ messageScores ns := by
  unfold messageScores
  refine List.mem_map.mpr ⟨j, List.mem_range.mpr ?_, rfl⟩
  rw [pySliceTo_neg_one, List.length_dropLast]
  exact hj

lemma messageScores_keys (ns : List Message) :
    (messageScores ns).map Prod.fst = List.range (pySliceTo (-1) ns).length := by
  unfold messageScores
  rw [List.map_map]
  rw [show (Prod.fst ∘ fun i => (i, scoreAt ns i)) = id from rfl]
  exact List.map_id _

lemma sorted_scores_length (ns : List Message) :
    (sorted_scores ns).length = ns.length - 1 := by
  unfold sorted_scores
  rw [(List.perm_insertionSort scoreOrder (messageScores ns)).length_eq]
  unfold messageScores
  rw [List.length_map, List.length_range, pySliceTo_neg_one, List.length_dropLast]

lemma selected_indices_eq (ns : List Message) {m : ℕ} (hm : 1 ≤ m) :
    selected_indices ns m = ((sorted_scores ns).take (m - 1)).map Prod.fst := by
  unfold selected_indices
  rw [pySliceTo_coe_sub_one _ hm]

lemma nodup_fst_sorted_scores (ns : List Message) :
    ((sorted_scores ns).map Prod.fst).Nodup := by
  have hperm : List.Perm ((sorted_scores ns).map Prod.fst)
      ((messageScores ns).map Prod.fst) :=
    (List.perm_insertionSort scoreOrder (messageScores ns)).map Prod.fst
  rw [hperm.nodup_iff, messageScores_keys]
  exact List.nodup_range _

lemma nodup_selected_indices (ns : List Message) {m : ℕ} (hm : 1 ≤ m) :
    (selected_indices ns m).Nodup := by
  rw [selected_indices_eq ns hm]
  exact List.Nodup.sublist (List.Sublist.map Prod.fst (List.take_sublist _ _))
    (nodup_fst_sorted_scores ns)

lemma mem_selected_indices_lt {ns : List Message} {m i : ℕ} (hm : 1 ≤ m)
    (hi : i ∈ selected_indices ns m) : i < ns.length - 1 := by
  rw [selected_indices_eq ns hm] at hi
  obtain ⟨p, hp, rfl⟩ := List.mem_map.mp hi
  have hpm : p ∈ messageScores ns :=
    (List.perm_insertionSort scoreOrder (messageScores ns)).subset
      ((List.take_sublist _ _).subset hp)
  exact (mem_messageScores hpm).2

/-- The selected indices beat every unselected scored index. -/
lemma selected_indices_dominate (ns : List Message) {m : ℕ} (hm : 1 ≤ m) :
    ∀ i ∈ selected_indices ns m, ∀ j, j < ns.length - 1 →
      j ∉ selected_indices ns m → scoreAt ns j ≤ scoreAt ns i := by
  intro i hi j hj hnj
  rw [selected_indices_eq ns hm] at hi hnj
  obtain ⟨p, hp, rfl⟩ := List.mem_map.mp hi
  have hpsorted : p ∈ sorted_scores ns := (List.take_sublist _ _).subset hp
  have hpms : p ∈ messageScores ns :=
    (List.perm_insertionSort scoreOrder (messageScores ns)).subset hpsorted
  have hp2 : p.2 = scoreAt ns p.1 := (mem_messageScores hpms).1
  have hjsorted : (j, scoreAt ns j) ∈ sorted_scores ns :=
    ((List.perm_insertionSort scoreOrder (messageScores ns)).symm.subset)
      (messageScores_mem_of_lt hj)
  have hsplit := List.take_append_drop (m - 1) (sorted_scores ns)
  have hjapp : (j, scoreAt ns j) ∈
      (sorted_scores ns).take (m - 1) ++ (sorted_scores ns).drop (m - 1) := by
    rw [hsplit]
    exact hjsorted
  rcases List.mem_append.mp hjapp with hin | hin
  · exact absurd (List.mem_map.mpr ⟨_, hin, rfl⟩) hnj
  · have hsorted : List.Sorted scoreOrder (sorted_scores ns) :=
      List.sorted_insertionSort scoreOrder (messageScores ns)
    have hpw : List.Pairwise scoreOrder
        ((sorted_scores ns).take (m - 1) ++ (sorted_scores ns).drop (m - 1)) := by
      rw [hsplit]
      exact hsorted
    have hcross := (List.pairwise_append.mp hpw).2.2 p hp _ hin
    rcases hcross with h | ⟨h, -⟩
    · rw [← hp2]
      exact le_of_lt h
    · rw [← hp2]
      exact le_of_eq h.symm

lemma filterMap_congr_mem {α β : Type} {f g : α → Option β} :
    ∀ (l : List α), (∀ a ∈ l, f a = g a) → l.filterMap f = l.filterMap g := by
  intro l
  induction l with
  | nil => intro _; rfl
  | cons a t ih =>
    intro h
    have ha := h a (List.mem_cons_self a t)
    have ht := ih fun x hx => h x (List.mem_cons_of_mem a hx)
    cases hg : g a with
    | none =>
      rw [List.filterMap_cons_none (by rw [ha, hg]),
        List.filterMap_cons_none hg, ht]
    | some b =>
      rw [List.filterMap_cons_some (by rw [ha, hg]),
        List.filterMap_cons_some hg, ht]

/-- Selecting positions by a strictly increasing index list yields a
sublist (indices are taken relative to an offset `c` below all of
them). -/
lemma filterMap_get?_sublist {α : Type} :
    ∀ (idxs : List ℕ) (l : List α) (c : ℕ), List.Pairwise (· < ·) idxs →
      (∀ j ∈ idxs, c ≤ j) →
      List.Sublist (idxs.filterMap fun j => l.get? (j - c)) l := by
  intro idxs
  induction idxs with
  | nil => intro l c _ _; exact List.nil_sublist l
  | cons i rest ih =>
    intro l c hpw hge
    have hrest_pw := hpw.of_cons
    have hi_lt : ∀ j ∈ rest, i < j := fun j hj => List.rel_of_pairwise_cons hpw hj
    have hci : c ≤ i := hge i (List.mem_cons_self _ _)
    cases hg : l.get? (i - c) with
    | none =>
      have hlen : l.length ≤ i - c := List.get?_eq_none.mp hg
      have hrest_none : (rest.filterMap fun j => l.get? (j - c)) = [] := by
        rw [List.filterMap_eq_nil_iff]
        intro j hj
        apply List.get?_eq_none.mpr
        have h1 := hi_lt j hj
        omega
      have hg2 : (fun j => l.get? (j - c)) i = none := hg
      rw [@List.filterMap_cons_none ℕ α (fun j => l.get? (j - c)) i rest hg2,
        hrest_none]
      exact List.nil_sublist l
    | some a =>
      have hic : i - c < l.length := by
        obtain ⟨h, -⟩ := List.get?_eq_some.mp hg
        exact h
      have hdecomp : l.take (i - c) ++ a :: l.drop (i - c + 1) = l := by
        obtain ⟨h, hget⟩ := List.get?_eq_some.mp hg
        have hmid : a :: l.drop (i - c + 1) = l.drop (i - c) := by
          rw [List.drop_eq_getElem_cons hic]
          congr 1
          exact hget.symm
        rw [hmid]
        exact List.take_append_drop _ l
      have hrest : (rest.filterMap fun j => l.get? (j - c)) =
          rest.filterMap fun j => (l.drop (i - c + 1)).get? (j - (i + 1)) := by
        apply filterMap_congr_mem
        intro j hj
        have h1 : i < j := hi_lt j hj
        rw [List.get?_drop]
        congr 1
        omega
      have hsub := ih (l.drop (i - c + 1)) (i + 1) hrest_pw
        (fun j hj => hi_lt j hj)
      have hg2 : (fun j => l.get? (j - c)) i = some a := hg
      rw [@List.filterMap_cons_some ℕ α (fun j => l.get? (j - c)) i rest a hg2,
        hrest]
      have hassemble : List.Sublist
          (([] : List α) ++ a :: rest.filterMap fun j => (l.drop (i - c + 1)).get? (j - (i + 1)))
          (l.take (i - c) ++ a :: l.drop (i - c + 1)) :=
        List.Sublist.append (List.nil_sublist _) (hsub.cons₂ a)
      rw [List.nil_append] at hassemble
      have hfin : List.Sublist (l.take (i - c) ++ a :: l.drop (i - c + 1)) l := by
        rw [hdecomp]
      exact hassemble.trans hfin

lemma filterMap_length_of_forall_isSome {α β : Type} {f : α → Option β} :
    ∀ {l : List α}, (∀ a ∈ l, (f a).isSome) → (l.filterMap f).length = l.length := by
  intro l
  induction l with
  | nil => intro _; rfl
  | cons a t ih =>
    intro h
    have ha := h a (List.mem_cons_self a t)
    obtain ⟨b, hb⟩ := Option.isSome_iff_exists.mp ha
    rw [List.filterMap_cons_some hb, List.length_cons, List.length_cons,
      ih fun x hx => h x (List.mem_cons_of_mem a hx)]

lemma kept_indices_pairwise_lt (ns : List Message) {m : ℕ} (hm : 1 ≤ m) :
    (kept_indices ns m).Pairwise (· < ·) := by
  have hsorted : List.Sorted (· ≤ ·) (kept_indices ns m) :=
    List.sorted_insertionSort (· ≤ ·) (selected_indices ns m)
  have hnd : (kept_indices ns m).Nodup :=
    (List.perm_insertionSort (· ≤ ·) (selected_indices ns m)).nodup_iff.mpr
      (nodup_selected_indices ns hm)
  exact (List.Pairwise.and hsorted hnd).imp fun hab => lt_of_le_of_ne hab.1 hab.2

lemma mem_kept_indices_lt {ns : List Message} {m j : ℕ} (hm : 1 ≤ m)
    (hj : j ∈ kept_indices ns m) : j < ns.length - 1 :=
  mem_selected_indices_lt hm
    ((List.perm_insertionSort (· ≤ ·) (selected_indices ns m)).subset hj)

/-- C7 (amended): an already-within-budget message list is returned
unchanged; when pruning happens the result is all system messages (in
their original order) followed by the kept non-system messages and the
unconditionally kept most recent non-system message, where the kept
non-last non-system messages appear in their original chronological order
(a sublist of the non-system prefix), number `min (maxMessages - 1)
(count - 1)`, and each scores at least as high as every dropped one.
System messages are hoisted to the front, so a system message that
originally appeared after a kept non-system message is reordered ahead of
it: the full result is not in general in original chronological order. -/
theorem pruneConversationContext_spec (messages : List Message)
    (max_messages max_tokens_estimate : ℕ) (hmax : 1 ≤ max_messages) :
    ((nonSystemMessages messages).length ≤ max_messages →
      prune_conversation_context messages max_messages max_tokens_estimate =
        messages) ∧
    (max_messages < (nonSystemMessages messages).length →
      ∃ last kept,
        (nonSystemMessages messages).getLast? = some last ∧
        prune_conversation_context messages max_messages max_tokens_estimate =
          systemMessages messages ++ (kept ++ [last]) ∧
        List.Sublist kept (nonSystemMessages messages).dropLast ∧
        kept.length =
          min (max_messages - 1) ((nonSystemMessages messages).length - 1) ∧
        (∀ i ∈ selected_indices (nonSystemMessages messages) max_messages,
          ∀ j, j < (nonSystemMessages messages).length - 1 →
            j ∉ selected_indices (nonSystemMessages messages) max_messages →
              scoreAt (nonSystemMessages messages) j ≤
                scoreAt (nonSystemMessages messages) i)) := by
  constructor
  · intro hle
    unfold prune_conversation_context
    dsimp only
    rw [if_pos hle]
  · intro hgt
    have hne : nonSystemMessages messages ≠ [] := by
      intro h0
      rw [h0] at hgt
      simp at hgt
    have hlastne : (nonSystemMessages messages).getLast? ≠ none := fun h =>
      hne (List.getLast?_eq_none_iff.mp h)
    obtain ⟨last, hlast⟩ := Option.ne_none_iff_exists'.mp hlastne
    have hbound : ∀ j ∈ kept_indices (nonSystemMessages messages) max_messages,
        j < (nonSystemMessages messages).length - 1 :=
      fun j hj => mem_kept_indices_lt hmax hj
    refine ⟨last,
      (kept_indices (nonSystemMessages messages) max_messages).filterMap
        (nonSystemMessages messages).get?, hlast, ?_, ?_, ?_, ?_⟩
    · unfold prune_conversation_context
      dsimp only
      rw [if_neg (not_le.mpr hgt), hlast]
    · have hswitch :
          (kept_indices (nonSystemMessages messages) max_messages).filterMap
            (nonSystemMessages messages).get? =
          (kept_indices (nonSystemMessages messages) max_messages).filterMap
            (nonSystemMessages messages).dropLast.get? := by
        apply filterMap_congr_mem
        intro j hj
        rw [List.dropLast_eq_take, List.get?_take (hbound j hj)]
      rw [hswitch]
      exact filterMap_get?_sublist
        (kept_indices (nonSystemMessages messages) max_messages)
        (nonSystemMessages messages).dropLast 0
        (kept_indices_pairwise_lt (nonSystemMessages messages) hmax)
        (fun j _ => Nat.zero_le j)
    · rw [filterMap_length_of_forall_isSome (fun j hj =>
        Option.isSome_iff_ne_none.mpr (fun h => by
          have h1 := List.get?_eq_none.mp h
          have h2 := hbound j hj
          omega))]
      unfold kept_indices
      rw [(List.perm_insertionSort (· ≤ ·)
        (selected_indices (nonSystemMessages messages) max_messages)).length_eq]
      rw [selected_indices_eq _ hmax, List.length_map, List.length_take,
        sorted_scores_length]
    · exact selected_indices_dominate (nonSystemMessages messages) hmax

/-- C7 witness: pruning five messages (one of them system) to a budget of
two non-system messages. -/
theorem pruneConversationContext_spec_witness :
    let messages : List Message := [⟨"system", "s"⟩, ⟨"human", "a b"⟩,
      ⟨"ai", "b c"⟩, ⟨"human", "x"⟩, ⟨"ai", "b d"⟩]
    ((nonSystemMessages messages).length ≤ 2 →
      prune_conversation_context messages 2 4096 = messages) ∧
    (2 < (nonSystemMessages messages).length →
      ∃ last kept,
        (nonSystemMessages messages).getLast? = some last ∧
        prune_conversation_context messages 2 4096 =
          systemMessages messages ++ (kept ++ [last]) ∧
        List.Sublist kept (nonSystemMessages messages).dropLast ∧
        kept.length = min (2 - 1) ((nonSystemMessages messages).length - 1) ∧
        (∀ i ∈ selected_indices (nonSystemMessages messages) 2,
          ∀ j, j < (nonSystemMessages messages).length - 1 →
            j ∉ selected_indices (nonSystemMessages messages) 2 →
              scoreAt (nonSystemMessages messages) j ≤
                scoreAt (nonSystemMessages messages) i)) :=
  pruneConversationContext_spec _ 2 4096 (by norm_num)

/-- C7 counterexample: with two non-system messages, a trailing system
message and a budget of one, the pruned result moves the system message
ahead of a non-system message it originally followed, so kept messages are
not presented in their original chronological order (the result is not a
sublist of the input). -/
theorem pruneConversationContext_order_counterexample :
    prune_conversation_context
      [⟨"human", "a"⟩, ⟨"human", "b"⟩, ⟨"system", "s"⟩] 1 4096 =
      [⟨"system", "s"⟩, ⟨"human", "b"⟩] ∧
    ¬ List.Sublist [(⟨"system", "s"⟩ : Message), ⟨"human", "b"⟩]
      [⟨"human", "a"⟩, ⟨"human", "b"⟩, ⟨"system", "s"⟩] := by
  constructor
  · decide
  · decide
